import Mathlib

/-!
Verification of the EduFlow course-authoring core: the client-side content
tree model (`types.ts`, `index.tsx`, `CoursePreview.tsx`, `StudentDashboard`)
and the server-side `save_course_with_children` reconciliation function
(migration `20250101000012_fix_null_content_handling.sql`, the final
revision).  Machine integers of the source (JS numbers used as integral
counts/orders, SQL integer/bigint) are modelled as `Int`/`Nat`; uuids as
strings; SQL `NULL` as `Option`.  The plpgsql function runs inside a single
transaction (a Supabase RPC is one statement): an uncaught exception rolls
back every write, which is modelled by `runTransaction`.
-/

namespace EduFlow

abbrev Uuid := String

/-- Client-side content reference (`LessonFile` in `types.ts`):
`{ name, type, url, size }`, with `type` a MIME-style token on the client
and one of the tokens `pdf`/`video` in the serialized save payload. -/
structure LessonFile where
  name : String
  type : String
  url : String
  size : Int
deriving DecidableEq, Repr

/-- Client-side lesson node: `content` is `null` for placeholder lessons. -/
structure Lesson where
  id : Uuid
  title : String
  order : Int
  content : Option LessonFile
deriving DecidableEq, Repr

/-- Client-side module node. -/
structure Module where
  id : Uuid
  title : String
  order : Int
  lessons : List Lesson
deriving DecidableEq, Repr

/-- Client-side course tree, also the shape of the `course_data` jsonb
payload sent to `save_course_with_children` (§6 of the spec).  `teacher_id`
is read by the SQL with `->>`, hence nullable. -/
structure Course where
  id : Uuid
  title : String
  description : String
  category : String
  imageUrl : Option String
  isPublished : Bool
  teacher_id : Option Uuid
  modules : List Module
deriving DecidableEq, Repr

/-- Prefix test on character lists (structural, kernel-reducible). -/
def charsPrefix : List Char → List Char → Bool
  | [], _ => true
  | _ :: _, [] => false
  | a :: as, b :: bs => a == b && charsPrefix as bs

/-- JavaScript `s.startsWith(pre)`. -/
def strStartsWith (s pre : String) : Bool :=
  charsPrefix pre.data s.data

/-- Splitting a character list at every occurrence of `sep`, keeping empty
segments (structural, kernel-reducible). -/
def splitOnChar (sep : Char) : List Char → List (List Char)
  | [] => [[]]
  | c :: rest =>
    let r := splitOnChar sep rest
    if c == sep then
      [] :: r
    else
      match r with
      | h :: t => (c :: h) :: t
      | [] => [[c]]

/-- JavaScript `s.split(sep)` for a one-character separator. -/
def jsSplit (sep : Char) (s : String) : List String :=
  (splitOnChar sep s.data).map (fun cs => String.mk cs)

/-- `normalizeFileType` from `index.tsx` / `StudentDashboard.tsx`: maps a
MIME type to the server enumeration token, `null` when unsupported. -/
def normalizeFileType (mimeType : String) : Option String :=
  if mimeType = "application/pdf" then
    some "pdf"
  else if strStartsWith mimeType "video/" then
    some "video"
  else
    none

/-- `enumToMimeType` from `index.tsx` / `StudentDashboard.tsx`: maps the
server enumeration token back to a MIME type, with the source fallback to
`application/pdf`. -/
def enumToMimeType (enumValue : String) : String :=
  if enumValue = "pdf" then
    "application/pdf"
  else if enumValue = "video" then
    "video/mp4"
  else
    "application/pdf"

/-- A row of the `public.progress` table
(`SETUP_COMPLETO_NUEVO_PROYECTO.sql` §1.6): unique on
`(student_id, lesson_id)`. -/
structure ProgressRow where
  student_id : Uuid
  lesson_id : Uuid
  is_completed : Bool
  updated_at : Int
deriving DecidableEq, Repr

/-- The PostgREST upsert issued by `handleLessonComplete`
(`CoursePreview.tsx`): `upsert {student_id, lesson_id, is_completed: true,
updated_at: now} onConflict (student_id, lesson_id)` — update the
conflicting row when one exists, insert otherwise. -/
def upsertProgress (sid lid : Uuid) (completed : Bool) (t : Int)
    (db : List ProgressRow) : List ProgressRow :=
  if db.any (fun r => r.student_id = sid ∧ r.lesson_id = lid) then
    db.map (fun r =>
      if r.student_id = sid ∧ r.lesson_id = lid then
        { r with is_completed := completed, updated_at := t }
      else r)
  else
    db ++ [⟨sid, lid, completed, t⟩]

/-- `handleLessonComplete`'s database write: mark `(sid, lid)` completed. -/
def markLessonComplete (sid lid : Uuid) (t : Int)
    (db : List ProgressRow) : List ProgressRow :=
  upsertProgress sid lid true t db

/-- JavaScript `Math.round` on a non-negative rational: half-up rounding. -/
def jsRound (q : ℚ) : ℤ := ⌊q + 1 / 2⌋

/-- `getCourseProgress` from `StudentDashboard.tsx`: completed lessons of
the course among the student's progress rows, as a rounded percentage,
`0` when the course has no lessons. -/
def getCourseProgress (progress : List ProgressRow) (course : Course) : ℤ :=
  let totalLessons : Nat := (course.modules.map (fun m => m.lessons.length)).sum
  if totalLessons = 0 then 0
  else
    let courseLessonIds := course.modules.flatMap (fun m => m.lessons.map (·.id))
    let completedLessons : Nat := (progress.filter
      (fun p => courseLessonIds.contains p.lesson_id && p.is_completed)).length
    jsRound (((completedLessons : ℚ) / (totalLessons : ℚ)) * 100)

/-- The server-side media-kind enumeration: the `lessons.file_type` column
admits exactly the values `pdf` and `video`
(`CHECK (file_type IN ('pdf','video'))`, and the `::public.file_type`
cast in the save function). -/
inductive FileType where
  | pdf
  | video
deriving DecidableEq, Repr

/-- Errors `save_course_with_children` can raise: the explicit
`RAISE EXCEPTION` on the ownership check, and a failing
`::public.file_type` cast of a content `type` outside the enumeration. -/
inductive SaveErr where
  | notAuthorized
  | invalidFileType
deriving DecidableEq, Repr

/-- The SQL cast `(content->>'type')::public.file_type`. -/
def castFileType : String → Except SaveErr FileType
  | "pdf" => .ok .pdf
  | "video" => .ok .video
  | _ => .error .invalidFileType

/-- A row of `public.courses`.  `teacher_id` is `NOT NULL`. -/
structure CourseRow where
  id : Uuid
  title : String
  description : String
  category : String
  image_url : Option String
  is_published : Bool
  teacher_id : Uuid
deriving DecidableEq, Repr

/-- A row of `public.modules` (`course_id REFERENCES courses ON DELETE
CASCADE`). -/
structure ModuleRow where
  id : Uuid
  course_id : Uuid
  title : String
  order : Int
deriving DecidableEq, Repr

/-- A row of `public.lessons` (`module_id REFERENCES modules ON DELETE
CASCADE`); the four file columns are nullable. -/
structure LessonRow where
  id : Uuid
  module_id : Uuid
  title : String
  order : Int
  file_name : Option String
  file_type : Option FileType
  file_url : Option String
  file_size : Option Int
deriving DecidableEq, Repr

/-- The persisted state touched by the save transaction. -/
structure DBState where
  courses : List CourseRow
  modules : List ModuleRow
  lessons : List LessonRow
deriving DecidableEq, Repr

/-- `NULLIF(course_data->>'image_url', 'null')`: the textual value
`"null"` is stored as SQL `NULL`. -/
def courseImg (d : Course) : Option String :=
  match d.imageUrl with
  | none => none
  | some v => if v = "null" then none else some v

/-- The course upsert of `save_course_with_children`: insert with
`image_url = NULLIF(course_data->>'image_url', 'null')`, or on id conflict
update title, description, category, image_url and is_published
(`teacher_id` is not in the update list). -/
def upsertCourse (d : Course) (tid : Uuid) (s : DBState) : DBState :=
  let img : Option String := courseImg d
  if s.courses.any (fun r => r.id = d.id) then
    { s with courses := s.courses.map (fun r =>
        if r.id = d.id then
          { r with title := d.title, description := d.description,
                   category := d.category, image_url := img,
                   is_published := d.isPublished }
        else r) }
  else
    { s with courses :=
        s.courses ++ [⟨d.id, d.title, d.description, d.category, img,
                       d.isPublished, tid⟩] }

/-- The module upsert: insert under `cid`, or on id conflict update title
and order (`course_id` is not in the update list). -/
def upsertModule (cid : Uuid) (s : DBState) (m : Module) : DBState :=
  if s.modules.any (fun r => r.id = m.id) then
    { s with modules := s.modules.map (fun r =>
        if r.id = m.id then { r with title := m.title, order := m.order }
        else r) }
  else
    { s with modules := s.modules ++ [⟨m.id, cid, m.title, m.order⟩] }

/-- The four file-column values a lesson upsert writes: the content's
name/type/url/size (with the `type` cast through the enumeration) when
content is present, explicit `NULL`s when it is `null` or absent. -/
def contentFields : Option LessonFile →
    Except SaveErr (Option String × Option FileType × Option String × Option Int)
  | some c =>
    match castFileType c.type with
    | .error e => .error e
    | .ok t => .ok (some c.name, some t, some c.url, some c.size)
  | none => .ok (none, none, none, none)

/-- The lesson upsert: when `content` is present its four file fields are
written (the `type` cast through the enumeration), when it is `null` or
absent explicit `NULL`s are written; on id conflict title, order and the
four file columns are updated (`module_id` is not in the update list). -/
def upsertLesson (mid : Uuid) (s : DBState) (l : Lesson) :
    Except SaveErr DBState :=
  match contentFields l.content with
  | .error e => .error e
  | .ok fields =>
    if s.lessons.any (fun r => r.id = l.id) then
      .ok { s with lessons := s.lessons.map (fun r =>
          if r.id = l.id then
            { r with title := l.title, order := l.order,
                     file_name := fields.1, file_type := fields.2.1,
                     file_url := fields.2.2.1, file_size := fields.2.2.2 }
          else r) }
    else
      .ok { s with lessons := s.lessons ++
          [⟨l.id, mid, l.title, l.order, fields.1, fields.2.1,
            fields.2.2.1, fields.2.2.2⟩] }

/-- `DELETE FROM lessons WHERE module_id = mid AND id NOT IN keep` (the
per-module cleanup; an empty `keep` deletes every lesson of the module). -/
def deleteLessonsNotIn (mid : Uuid) (keep : List Uuid) (s : DBState) :
    DBState :=
  { s with lessons :=
      s.lessons.filter (fun r => ¬(r.module_id = mid ∧ r.id ∉ keep)) }

/-- `DELETE FROM modules WHERE course_id = cid AND id NOT IN keep`,
together with the `ON DELETE CASCADE` removal of the deleted modules'
lessons. -/
def deleteModulesNotIn (cid : Uuid) (keep : List Uuid) (s : DBState) :
    DBState :=
  { s with
    modules := s.modules.filter (fun r => ¬(r.course_id = cid ∧ r.id ∉ keep)),
    lessons := s.lessons.filter (fun r => r.module_id ∉
      (s.modules.filter (fun rm => rm.course_id = cid ∧ rm.id ∉ keep)).map (·.id)) }

/-- The inner `FOR lesson_json IN ... LOOP` of the save function. -/
def saveLessons (mid : Uuid) : DBState → List Lesson → Except SaveErr DBState
  | s, [] => .ok s
  | s, l :: ls =>
    match upsertLesson mid s l with
    | .error e => .error e
    | .ok s1 => saveLessons mid s1 ls

/-- One iteration of the `FOR module_json IN ... LOOP`: module upsert,
lesson upserts, then deletion of the module's lessons that are no longer
in its input list. -/
def applyModule (cid : Uuid) (s : DBState) (m : Module) :
    Except SaveErr DBState :=
  match saveLessons m.id (upsertModule cid s m) m.lessons with
  | .error e => .error e
  | .ok s2 => .ok (deleteLessonsNotIn m.id (m.lessons.map (·.id)) s2)

/-- The module loop of the save function. -/
def saveModules (cid : Uuid) : DBState → List Module → Except SaveErr DBState
  | s, [] => .ok s
  | s, m :: ms =>
    match applyModule cid s m with
    | .error e => .error e
    | .ok s1 => saveModules cid s1 ms

/-- `public.save_course_with_children(course_data)` from migration
`20250101000012_fix_null_content_handling.sql` (the final revision), run
by caller `caller` (`auth.uid()`): raise unless the payload's
`teacher_id` is non-null and equals the caller, then upsert the course,
run the module/lesson loop, and finally delete the course's modules that
are no longer in the input (cascading to their lessons). -/
def save_course_with_children (caller : Uuid) (d : Course) (s : DBState) :
    Except SaveErr DBState :=
  match d.teacher_id with
  | none => .error .notAuthorized
  | some tid =>
    if tid = caller then
      match saveModules d.id (upsertCourse d tid s) d.modules with
      | .error e => .error e
      | .ok s2 => .ok (deleteModulesNotIn d.id (d.modules.map (·.id)) s2)
    else .error .notAuthorized

/-- PostgreSQL transaction semantics for the RPC: the function body runs
in one transaction, so an uncaught exception leaves the persisted state
exactly as it was. -/
def runTransaction (f : DBState → Except SaveErr DBState) (s : DBState) :
    DBState :=
  match f s with
  | .ok s1 => s1
  | .error _ => s

/-- One endpoint of a drag (`react-beautiful-dnd`): a droppable id and a
0-based index within it. -/
structure DropPos where
  droppableId : String
  index : Nat
deriving DecidableEq, Repr

/-- A `DropResult` as consumed by `onDragEnd` in `CoursePreview.tsx`:
`destination` is `null` when the item was dropped outside a droppable;
`type` is the droppable type string (`MODULES`, or `LESSONS_<moduleId>`).
The library only ever reports in-range indices. -/
structure DropResult where
  source : DropPos
  destination : Option DropPos
  type : String
deriving DecidableEq, Repr

/-- The two-splice reorder of `onDragEnd`: `items.splice(src, 1)` followed
by `items.splice(dst, 0, removed)`.  An out-of-range source index (which
the library never produces) is modelled as a no-op. -/
def moveItem {α : Type} (l : List α) (src dst : Nat) : List α :=
  match l[src]? with
  | none => l
  | some x => (l.eraseIdx src).insertIdx dst x

/-- `items.map((mod, index) => ({ ...mod, order: index }))`: restamp every
module's `order` with its 0-based position. -/
def stampModules (items : List Module) : List Module :=
  items.mapIdx (fun i m => { m with order := (i : Int) })

/-- `items.map((less, index) => ({ ...less, order: index }))`: restamp
every lesson's `order` with its 0-based position. -/
def stampLessons (items : List Lesson) : List Lesson :=
  items.mapIdx (fun i l => { l with order := (i : Int) })

/-- `onDragEnd` from `CoursePreview.tsx`: with a valid destination, a
`MODULES` drag reorders `course.modules` and restamps every module's
`order` with its new index; a `LESSONS_<moduleId>` drag reorders that
module's lessons and restamps their `order`s, leaving other modules as
they were. -/
def onDragEnd (result : DropResult) (c : Course) : Course :=
  match result.destination with
  | none => c
  | some dest =>
    if result.type = "MODULES" then
      let items := moveItem c.modules result.source.index dest.index
      { c with modules := stampModules items }
    else if strStartsWith result.type "LESSONS_" then
      let moduleId := ((jsSplit '_' result.type)[1]?).getD ""
      match c.modules.find? (fun m => m.id = moduleId) with
      | none => c
      | some md =>
        let items := moveItem md.lessons result.source.index dest.index
        let updatedLessons := stampLessons items
        { c with modules := c.modules.map (fun m =>
            if m.id = moduleId then { m with lessons := updatedLessons } else m) }
    else c

/-- A file picked in the lesson file input: name, MIME type, byte size. -/
structure FileDesc where
  name : String
  type : String
  size : Int
deriving DecidableEq, Repr

/-- Observable outcome of one `handleFileChange` run: the storage paths it
asked the object store to upload, the error toast it showed (if any), the
content it attached to the lesson (if any), and whether it touched the
upload progress/status state for the lesson. -/
structure UploadOutcome where
  storageUploads : List String
  errorToast : Option String
  contentSet : Option LessonFile
  progressTouched : Bool
deriving DecidableEq, Repr

/-- `file.name.split('.').pop()`. -/
def fileExt (name : String) : String :=
  ((jsSplit '.' name).getLast?).getD ""

/-- `handleFileChange` from `CoursePreview.tsx`, with its interaction with
the object store abstracted into inputs: `genId` stands for the generated
`uuidv4()` path segment, `uploadResult` for the storage upload response
(`.ok` carries the stored path) and `publicUrl` for the public URL the
store resolves for that path.  Guard order follows the source: missing
file or missing `course.teacher_id` returns silently; an unsupported MIME
type shows an error toast and returns before any storage call or
progress-state write. -/
def handleFileChange (files : List FileDesc) (teacherId : Option Uuid)
    (courseId moduleId lessonId genId : String)
    (uploadResult : Except String String) (publicUrl : String → String) :
    UploadOutcome :=
  match files, teacherId with
  | [], _ => ⟨[], none, none, false⟩
  | _, none => ⟨[], none, none, false⟩
  | file :: _, some tid =>
    if file.type ≠ "video/mp4" ∧ file.type ≠ "application/pdf" then
      { storageUploads := [],
        errorToast := some "Tipo de archivo no soportado. Sube un video MP4 o un PDF.",
        contentSet := none,
        progressTouched := false }
    else
      let filePath := tid ++ "/" ++ courseId ++ "/" ++ moduleId ++ "/" ++
        lessonId ++ "/" ++ genId ++ "." ++ fileExt file.name
      match uploadResult with
      | .error msg =>
        { storageUploads := [filePath],
          errorToast := some ("Error al subir el archivo: " ++ msg),
          contentSet := none,
          progressTouched := true }
      | .ok path =>
        { storageUploads := [filePath],
          errorToast := none,
          contentSet := some ⟨file.name, file.type, publicUrl path, file.size⟩,
          progressTouched := true }

/-- The seven mutable fields a lesson upsert leaves on every row carrying
the lesson's id (`module_id` only when the row was inserted or already
under that module). -/
def lessonRowMatches (mid : Uuid) (l : Lesson)
    (fs : Option String × Option FileType × Option String × Option Int)
    (r : LessonRow) : Prop :=
  r.module_id = mid ∧ r.title = l.title ∧ r.order = l.order ∧
  r.file_name = fs.1 ∧ r.file_type = fs.2.1 ∧ r.file_url = fs.2.2.1 ∧
  r.file_size = fs.2.2.2

/-! Concrete fixtures used to instantiate the theorems below. -/

/-- A persisted state with one course `c0` (owner `t`), one module `m0`
and one lesson `l0` with an attached pdf file. -/
def fixState : DBState :=
  ⟨[⟨"c0", "Existing", "d", "cat", none, true, "t"⟩],
   [⟨"m0", "c0", "Mod 0", 0⟩],
   [⟨"l0", "m0", "Les 0", 0, some "f.pdf", some .pdf, some "u0", some 9⟩]⟩

/-- A payload owned by `t` whose second module carries a content `type`
outside the server enumeration, so its save fails midway. -/
def badTypeTree : Course :=
  ⟨"c0", "T", "", "", none, false, some "t",
   [⟨"mA", "A", 0, [⟨"lA", "a", 0, some ⟨"a.pdf", "pdf", "u1", 1⟩⟩]⟩,
    ⟨"mB", "B", 1, [⟨"lB", "b", 0, some ⟨"b.exe", "exe", "u2", 1⟩⟩]⟩]⟩

/-- A well-formed payload owned by `t`: module `m0` keeps lesson `l0` but
clears its content, module `m1` adds a lesson with a video file. -/
def goodTree : Course :=
  ⟨"c0", "T2", "d2", "cat", some "img", true, some "t",
   [⟨"m0", "A", 0, [⟨"l0", "a", 0, none⟩]⟩,
    ⟨"m1", "B", 1, [⟨"l1", "b", 0, some ⟨"b.mp4", "video", "u3", 7⟩⟩]⟩]⟩

/-- The non-idempotence scenario: the input tree moves lesson `L` into
module `A` while the persisted state still holds `L` under module `B`,
which the tree keeps but empties. -/
def moveTree : Course :=
  ⟨"c", "t1", "", "", none, false, some "t",
   [⟨"A", "module A", 0, [⟨"L", "lesson L", 0, none⟩]⟩,
    ⟨"B", "module B", 1, []⟩]⟩

/-- Persisted state for `moveTree`: lesson `L` lives under module `B`. -/
def moveState : DBState :=
  ⟨[], [⟨"B", "c", "old B", 0⟩],
   [⟨"L", "B", "old L", 0, none, none, none, none⟩]⟩

/-- A course with no modules at all. -/
def emptyCourse : Course :=
  ⟨"ce", "", "", "", none, false, some "t", []⟩

/-- A three-module course for the drag-and-drop theorems. -/
def dragCourse : Course :=
  ⟨"c", "", "", "", none, false, some "t",
   [⟨"m1", "M1", 0, [⟨"l1", "", 0, none⟩, ⟨"l2", "", 1, none⟩]⟩,
    ⟨"m2", "M2", 1, []⟩,
    ⟨"m3", "M3", 2, []⟩]⟩

end EduFlow

namespace EduFlow

/-- C8: the media-kind translation is lossless both ways on the tokens the
code uses: `normalizeFileType` inverts `enumToMimeType` on `pdf`/`video`,
and `enumToMimeType` inverts `normalizeFileType` on
`video/mp4`/`application/pdf`. -/
theorem fileType_translation_lossless :
    (normalizeFileType (enumToMimeType "pdf") = some "pdf" ∧
     normalizeFileType (enumToMimeType "video") = some "video") ∧
    ((normalizeFileType "video/mp4").map enumToMimeType = some "video/mp4" ∧
     (normalizeFileType "application/pdf").map enumToMimeType =
       some "application/pdf") := by
  decide

/-- C10: `getCourseProgress` returns `0` for a course with no lessons (the
division is guarded), and whenever the completed count is at most the
total count the result lies between 0 and 100. -/
theorem getCourseProgress_total_and_bounded
    (progress : List ProgressRow) (course : Course) :
    ((course.modules.map (fun m => m.lessons.length)).sum = 0 →
      getCourseProgress progress course = 0) ∧
    ((progress.filter (fun p =>
        ((course.modules.flatMap (fun m => m.lessons.map (·.id))).contains
          p.lesson_id && p.is_completed))).length ≤
        (course.modules.map (fun m => m.lessons.length)).sum →
      0 ≤ getCourseProgress progress course ∧
        getCourseProgress progress course ≤ 100) := by
  constructor
  · intro h
    simp only [getCourseProgress]
    rw [if_pos h]
  · intro hle
    by_cases h0 : (course.modules.map (fun m => m.lessons.length)).sum = 0
    · simp only [getCourseProgress]
      rw [if_pos h0]
      norm_num
    · simp only [getCourseProgress]
      rw [if_neg h0]
      have ht : 0 < (course.modules.map (fun m => m.lessons.length)).sum :=
        Nat.pos_of_ne_zero h0
      generalize hc : (progress.filter (fun p =>
          ((course.modules.flatMap (fun m => m.lessons.map (·.id))).contains
            p.lesson_id && p.is_completed))).length = c at hle
      generalize htt : (course.modules.map
          (fun m => m.lessons.length)).sum = t at hle ht
      have h1 : ((c : ℚ)) / ((t : ℚ)) ≤ 1 := by
        rw [div_le_one (by exact_mod_cast ht)]
        exact_mod_cast hle
      have hq0 : (0 : ℚ) ≤ (c : ℚ) / (t : ℚ) * 100 := by positivity
      constructor
      · exact Int.le_floor.mpr (by push_cast; linarith)
      · have h3 := Int.floor_lt.mpr
          (show ((c : ℚ)) / ((t : ℚ)) * 100 + 1 / 2 < ((101 : ℤ) : ℚ) by
            push_cast; linarith)
        unfold jsRound
        omega

/-- Witness for C10 at a concrete course and progress list. -/
theorem getCourseProgress_total_and_bounded_witness :
    getCourseProgress [] emptyCourse = 0 ∧
    (0 ≤ getCourseProgress [⟨"s", "l1", true, 0⟩] dragCourse ∧
      getCourseProgress [⟨"s", "l1", true, 0⟩] dragCourse ≤ 100) :=
  ⟨(getCourseProgress_total_and_bounded [] emptyCourse).1 (by decide),
   (getCourseProgress_total_and_bounded [⟨"s", "l1", true, 0⟩] dragCourse).2
     (by decide)⟩

/-- C7: a selected file whose MIME type is neither `video/mp4` nor
`application/pdf` is rejected before any transfer: the handler shows the
error toast, performs no storage upload, attaches no content, and leaves
the upload progress state untouched. -/
theorem handleFileChange_rejects_unsupported_type
    (file : FileDesc) (rest : List FileDesc) (tid : Uuid)
    (courseId moduleId lessonId genId : String)
    (uploadResult : Except String String) (publicUrl : String → String)
    (h1 : file.type ≠ "video/mp4") (h2 : file.type ≠ "application/pdf") :
    handleFileChange (file :: rest) (some tid) courseId moduleId lessonId genId
      uploadResult publicUrl =
      { storageUploads := [],
        errorToast :=
          some "Tipo de archivo no soportado. Sube un video MP4 o un PDF.",
        contentSet := none,
        progressTouched := false } := by
  simp [handleFileChange, h1, h2]

/-- Witness for C7 at a concrete png file. -/
theorem handleFileChange_rejects_unsupported_type_witness :
    handleFileChange [⟨"notes.png", "image/png", 1024⟩] (some "t") "c" "m" "l"
      "g" (.ok "p") id =
      { storageUploads := [],
        errorToast :=
          some "Tipo de archivo no soportado. Sube un video MP4 o un PDF.",
        contentSet := none,
        progressTouched := false } :=
  handleFileChange_rejects_unsupported_type ⟨"notes.png", "image/png", 1024⟩
    [] "t" "c" "m" "l" "g" (.ok "p") id (by decide) (by decide)

/-- C1: a save whose payload `teacher_id` is absent or different from the
caller raises the authorization error and, under transaction semantics,
leaves the persisted state exactly unchanged. -/
theorem saveCourse_auth_mismatch_no_write
    (caller : Uuid) (d : Course) (s : DBState)
    (h : d.teacher_id ≠ some caller) :
    save_course_with_children caller d s = .error .notAuthorized ∧
    runTransaction (save_course_with_children caller d) s = s := by
  have hsave : save_course_with_children caller d s = .error .notAuthorized := by
    unfold save_course_with_children
    cases htid : d.teacher_id with
    | none => rfl
    | some tid =>
      have hne : ¬ tid = caller := fun he => h (htid ▸ he ▸ rfl)
      simp [hne]
  refine ⟨hsave, ?_⟩
  unfold runTransaction
  rw [hsave]

/-- Witness for C1: caller `u` tries to save a tree owned by `t`. -/
theorem saveCourse_auth_mismatch_no_write_witness :
    save_course_with_children "u" goodTree fixState = .error .notAuthorized ∧
    runTransaction (save_course_with_children "u" goodTree) fixState =
      fixState :=
  saveCourse_auth_mismatch_no_write "u" goodTree fixState (by decide)

/-- C2: the save is all-or-nothing: whenever the function raises an error,
the state observed after the transaction equals the state before it. -/
theorem saveCourse_atomic_rollback
    (caller : Uuid) (d : Course) (s : DBState) (e : SaveErr)
    (h : save_course_with_children caller d s = .error e) :
    runTransaction (save_course_with_children caller d) s = s := by
  unfold runTransaction
  rw [h]

/-- Witness for C2: the save of `badTypeTree` fails midway (its first
module is fully processed before the second module's bad content type is
cast), yet the observed state is the original one. -/
theorem saveCourse_atomic_rollback_witness :
    runTransaction (save_course_with_children "t" badTypeTree) fixState =
      fixState :=
  saveCourse_atomic_rollback "t" badTypeTree fixState .invalidFileType
    (by rfl)

/-- C9: marking a lesson complete is an idempotent keyed upsert: under the
table's `(student_id, lesson_id)` uniqueness, applying the same completion
twice equals applying it once, exactly one row for the key remains, and it
is marked completed. -/
theorem lessonComplete_upsert_idempotent
    (sid lid : Uuid) (t : Int) (db : List ProgressRow)
    (hkey : db.Pairwise (fun a b =>
      ¬(a.student_id = b.student_id ∧ a.lesson_id = b.lesson_id))) :
    markLessonComplete sid lid t (markLessonComplete sid lid t db) =
      markLessonComplete sid lid t db ∧
    ((markLessonComplete sid lid t db).filter
        (fun r => r.student_id = sid ∧ r.lesson_id = lid)).length = 1 ∧
    (∀ r ∈ markLessonComplete sid lid t db,
      r.student_id = sid → r.lesson_id = lid → r.is_completed = true) := by
  unfold markLessonComplete upsertProgress
  by_cases hmatch : db.any (fun r => r.student_id = sid ∧ r.lesson_id = lid)
  · rw [if_pos hmatch]
    obtain ⟨r0, hr0mem, hr0key⟩ := List.any_eq_true.mp hmatch
    rw [decide_eq_true_eq] at hr0key
    have hmap : (db.map (fun r =>
        if r.student_id = sid ∧ r.lesson_id = lid then
          { r with is_completed := true, updated_at := t } else r)).any
        (fun r => r.student_id = sid ∧ r.lesson_id = lid) = true := by
      refine List.any_eq_true.mpr ?_
      refine ⟨if r0.student_id = sid ∧ r0.lesson_id = lid then
          { r0 with is_completed := true, updated_at := t } else r0,
        List.mem_map_of_mem _ hr0mem, ?_⟩
      rw [if_pos hr0key]
      simpa using hr0key
    refine ⟨?_, ?_, ?_⟩
    · rw [if_pos hmap, List.map_map]
      refine List.map_congr_left ?_
      intro r hr
      by_cases hk : r.student_id = sid ∧ r.lesson_id = lid
      · simp [Function.comp, hk]
      · simp [Function.comp, hk]
    · rw [List.filter_map]
      rw [List.length_map]
      have hcong : db.filter ((fun r : ProgressRow =>
            decide (r.student_id = sid ∧ r.lesson_id = lid)) ∘ (fun r =>
          if r.student_id = sid ∧ r.lesson_id = lid then
            { r with is_completed := true, updated_at := t } else r)) =
          db.filter (fun r => r.student_id = sid ∧ r.lesson_id = lid) := by
        refine List.filter_congr ?_
        intro r hr
        by_cases hk : r.student_id = sid ∧ r.lesson_id = lid
        · simp [Function.comp, hk]
        · simp [Function.comp, hk]
      rw [hcong]
      have hr0f : r0 ∈ db.filter
          (fun r => r.student_id = sid ∧ r.lesson_id = lid) :=
        List.mem_filter.mpr ⟨hr0mem, decide_eq_true hr0key⟩
      have hpf := hkey.filter
        (fun r => r.student_id = sid ∧ r.lesson_id = lid)
      rcases hfl : db.filter (fun r => r.student_id = sid ∧ r.lesson_id = lid)
        with _ | ⟨a, _ | ⟨b, rest2⟩⟩
      · rw [hfl] at hr0f
        exact absurd hr0f (List.not_mem_nil r0)
      · rw [hfl]
        rfl
      · exfalso
        rw [hfl] at hpf
        have hRab := (List.pairwise_cons.mp hpf).1 b (List.mem_cons_self b rest2)
        have ha : a ∈ db.filter
            (fun r => r.student_id = sid ∧ r.lesson_id = lid) := by
          rw [hfl]; exact List.mem_cons_self _ _
        have hb : b ∈ db.filter
            (fun r => r.student_id = sid ∧ r.lesson_id = lid) := by
          rw [hfl]; exact List.mem_cons_of_mem _ (List.mem_cons_self _ _)
        have hak := decide_eq_true_eq.mp (List.mem_filter.mp ha).2
        have hbk := decide_eq_true_eq.mp (List.mem_filter.mp hb).2
        exact hRab ⟨hak.1.trans hbk.1.symm, hak.2.trans hbk.2.symm⟩
    · intro r hr hs hl
      obtain ⟨r1, hr1mem, hr1eq⟩ := List.mem_map.mp hr
      by_cases hk : r1.student_id = sid ∧ r1.lesson_id = lid
      · rw [← hr1eq]
        simp [hk]
      · have hid : r1 = r := by rw [← hr1eq]; simp [hk]
        subst hid
        exact absurd ⟨hs, hl⟩ hk
  · rw [if_neg hmatch]
    have hnall : ∀ r ∈ db, ¬(r.student_id = sid ∧ r.lesson_id = lid) :=
      fun r hr hk => hmatch (List.any_eq_true.mpr ⟨r, hr, decide_eq_true hk⟩)
    have happ : ((db ++ [(⟨sid, lid, true, t⟩ : ProgressRow)]).any
        (fun r => r.student_id = sid ∧ r.lesson_id = lid)) = true :=
      List.any_eq_true.mpr ⟨⟨sid, lid, true, t⟩,
        List.mem_append_right _ (List.mem_singleton_self _), by simp⟩
    refine ⟨?_, ?_, ?_⟩
    · rw [if_pos happ, List.map_append]
      have h1 : db.map (fun r =>
          if r.student_id = sid ∧ r.lesson_id = lid then
            { r with is_completed := true, updated_at := t } else r) = db := by
        have h2 : db.map (fun r =>
            if r.student_id = sid ∧ r.lesson_id = lid then
              { r with is_completed := true, updated_at := t } else r) =
            db.map id :=
          List.map_congr_left (fun r hr => by simp [hnall r hr])
        rw [h2, List.map_id]
      rw [h1]
      simp
    · rw [List.filter_append]
      have h1 : db.filter (fun r => r.student_id = sid ∧ r.lesson_id = lid) = [] :=
        List.filter_eq_nil_iff.mpr (fun r hr => by simpa using hnall r hr)
      rw [h1]
      simp
    · intro r hr hs hl
      rcases List.mem_append.mp hr with h | h
      · exact absurd ⟨hs, hl⟩ (hnall r h)
      · rw [List.mem_singleton] at h
        subst h
        rfl

/-- The two JS splices preserve the length of the list when both indices
are in range. -/
theorem moveItem_length {α : Type} (l : List α) (i j : Nat)
    (hi : i < l.length) (hj : j < l.length) :
    (moveItem l i j).length = l.length := by
  unfold moveItem
  rw [List.getElem?_eq_getElem hi]
  simp only
  rw [List.length_insertIdx _ _ (by rw [List.length_eraseIdx_of_lt hi]; omega),
      List.length_eraseIdx_of_lt hi]
  omega

/-- A list whose matching elements are pairwise incompatible and which has
a matching element has exactly one match. -/
theorem countP_eq_one_of_pairwise_key {α : Type} (p : α → Bool) (l : List α)
    (hpw : l.Pairwise (fun a b => ¬(p a = true ∧ p b = true)))
    (hex : ∃ x ∈ l, p x = true) : l.countP p = 1 := by
  rw [List.countP_eq_length_filter]
  obtain ⟨x, hxmem, hxp⟩ := hex
  have hxf : x ∈ l.filter p := List.mem_filter.mpr ⟨hxmem, hxp⟩
  have hpf := hpw.filter p
  rcases hfl : l.filter p with _ | ⟨a, _ | ⟨b, rest⟩⟩
  · rw [hfl] at hxf
    exact absurd hxf (List.not_mem_nil x)
  · rfl
  · exfalso
    rw [hfl] at hpf
    have hRab := (List.pairwise_cons.mp hpf).1 b (List.mem_cons_self b rest)
    have ha : a ∈ l.filter p := by rw [hfl]; exact List.mem_cons_self _ _
    have hb : b ∈ l.filter p := by
      rw [hfl]; exact List.mem_cons_of_mem _ (List.mem_cons_self _ _)
    exact hRab ⟨(List.mem_filter.mp ha).2, (List.mem_filter.mp hb).2⟩

/-- `stampModules` keeps length and every non-order field, and sets each
module's `order` to its 0-based position. -/
theorem stampModules_spec (l : List Module) :
    (stampModules l).length = l.length ∧
    ∀ i (h1 : i < (stampModules l).length) (h2 : i < l.length),
      ((stampModules l).get ⟨i, h1⟩).order = (i : Int) ∧
      ((stampModules l).get ⟨i, h1⟩).id = (l.get ⟨i, h2⟩).id ∧
      ((stampModules l).get ⟨i, h1⟩).title = (l.get ⟨i, h2⟩).title ∧
      ((stampModules l).get ⟨i, h1⟩).lessons = (l.get ⟨i, h2⟩).lessons := by
  refine ⟨by simp [stampModules], ?_⟩
  intro i h1 h2
  have hg := List.get_mapIdx l (fun i m => { m with order := (i : Int) }) i h2
  simp only [stampModules]
  rw [hg]
  exact ⟨rfl, rfl, rfl, rfl⟩

/-- `stampLessons` keeps length and every non-order field, and sets each
lesson's `order` to its 0-based position. -/
theorem stampLessons_spec (l : List Lesson) :
    (stampLessons l).length = l.length ∧
    ∀ i (h1 : i < (stampLessons l).length) (h2 : i < l.length),
      ((stampLessons l).get ⟨i, h1⟩).order = (i : Int) ∧
      ((stampLessons l).get ⟨i, h1⟩).id = (l.get ⟨i, h2⟩).id ∧
      ((stampLessons l).get ⟨i, h1⟩).title = (l.get ⟨i, h2⟩).title ∧
      ((stampLessons l).get ⟨i, h1⟩).content = (l.get ⟨i, h2⟩).content := by
  refine ⟨by simp [stampLessons], ?_⟩
  intro i h1 h2
  have hg := List.get_mapIdx l (fun i m => { m with order := (i : Int) }) i h2
  simp only [stampLessons]
  rw [hg]
  exact ⟨rfl, rfl, rfl, rfl⟩

/-- C6: a drag with a valid destination recomputes the `order` of every
sibling in the affected list to its 0-based index in the new sequence
(dense, contiguous, matching display order): a `MODULES` drag restamps the
reordered modules list keeping all other fields (in particular every
module's lessons list); a `LESSONS_<mid>` drag replaces exactly the one
module whose id is `mid` (under unique module ids) with its restamped
reordered lessons, leaving every other module entirely unchanged. -/
theorem onDragEnd_recomputes_sibling_orders
    (r : DropResult) (c : Course) (dest : DropPos)
    (hdest : r.destination = some dest) :
    (r.type = "MODULES" →
      r.source.index < c.modules.length →
      dest.index < c.modules.length →
      (onDragEnd r c).modules =
        stampModules (moveItem c.modules r.source.index dest.index) ∧
      (moveItem c.modules r.source.index dest.index).length =
        c.modules.length ∧
      (∀ i (h1 : i < (stampModules
            (moveItem c.modules r.source.index dest.index)).length)
          (h2 : i < (moveItem c.modules r.source.index dest.index).length),
        ((stampModules (moveItem c.modules r.source.index
            dest.index)).get ⟨i, h1⟩).order = (i : Int) ∧
        ((stampModules (moveItem c.modules r.source.index
            dest.index)).get ⟨i, h1⟩).id =
          ((moveItem c.modules r.source.index dest.index).get ⟨i, h2⟩).id ∧
        ((stampModules (moveItem c.modules r.source.index
            dest.index)).get ⟨i, h1⟩).title =
          ((moveItem c.modules r.source.index dest.index).get ⟨i, h2⟩).title ∧
        ((stampModules (moveItem c.modules r.source.index
            dest.index)).get ⟨i, h1⟩).lessons =
          ((moveItem c.modules r.source.index dest.index).get ⟨i, h2⟩).lessons)) ∧
    (∀ mid md,
      strStartsWith r.type "LESSONS_" = true →
      r.type ≠ "MODULES" →
      (jsSplit '_' r.type)[1]? = some mid →
      c.modules.find? (fun m => m.id = mid) = some md →
      (c.modules.map (·.id)).Nodup →
      r.source.index < md.lessons.length →
      dest.index < md.lessons.length →
      c.modules.countP (fun m => m.id = mid) = 1 ∧
      (onDragEnd r c).modules = c.modules.map (fun m =>
        if m.id = mid then
          { m with lessons :=
              stampLessons (moveItem md.lessons r.source.index dest.index) }
        else m) ∧
      (moveItem md.lessons r.source.index dest.index).length =
        md.lessons.length ∧
      (∀ i (h1 : i < (stampLessons
            (moveItem md.lessons r.source.index dest.index)).length)
          (h2 : i < (moveItem md.lessons r.source.index dest.index).length),
        ((stampLessons (moveItem md.lessons r.source.index
            dest.index)).get ⟨i, h1⟩).order = (i : Int) ∧
        ((stampLessons (moveItem md.lessons r.source.index
            dest.index)).get ⟨i, h1⟩).id =
          ((moveItem md.lessons r.source.index dest.index).get ⟨i, h2⟩).id ∧
        ((stampLessons (moveItem md.lessons r.source.index
            dest.index)).get ⟨i, h1⟩).title =
          ((moveItem md.lessons r.source.index dest.index).get ⟨i, h2⟩).title ∧
        ((stampLessons (moveItem md.lessons r.source.index
            dest.index)).get ⟨i, h1⟩).content =
          ((moveItem md.lessons r.source.index dest.index).get ⟨i, h2⟩).content)) := by
  constructor
  · intro htype hsrc hdst
    refine ⟨?_, moveItem_length _ _ _ hsrc hdst, (stampModules_spec _).2⟩
    unfold onDragEnd
    rw [hdest]
    simp only [htype]
    rfl
  · intro mid md hsw htype hsplit hfind hnodup hsrc hdst
    refine ⟨?_, ?_, moveItem_length _ _ _ hsrc hdst, (stampLessons_spec _).2⟩
    · refine countP_eq_one_of_pairwise_key _ _ ?_ ?_
      · have hpw : c.modules.Pairwise (fun a b => a.id ≠ b.id) :=
          List.pairwise_map.mp hnodup
        refine hpw.imp ?_
        intro a b hne ⟨hpa, hpb⟩
        rw [decide_eq_true_eq] at hpa hpb
        exact hne (hpa.trans hpb.symm)
      · refine ⟨md, List.mem_of_find?_eq_some hfind, ?_⟩
        have hp := List.find?_some hfind
        simpa using hp
    · have hmod : ((jsSplit '_' r.type)[1]?).getD "" = mid := by
        rw [hsplit]; rfl
      unfold onDragEnd
      rw [hdest]
      simp only [if_neg htype, hsw, if_true, hmod, hfind]

/-- Witness for C6: a concrete module drag (index 0 to index 2) and a
concrete lesson drag (index 1 to index 0 inside module `m1`) on
`dragCourse`. -/
theorem onDragEnd_recomputes_sibling_orders_witness :
    ((onDragEnd ⟨⟨"modules-droppable", 0⟩, some ⟨"modules-droppable", 2⟩,
        "MODULES"⟩ dragCourse).modules =
      stampModules (moveItem dragCourse.modules 0 2) ∧
     (moveItem dragCourse.modules 0 2).length = dragCourse.modules.length) ∧
    (dragCourse.modules.countP (fun m => m.id = "m1") = 1 ∧
     (onDragEnd ⟨⟨"m1", 1⟩, some ⟨"m1", 0⟩, "LESSONS_m1"⟩ dragCourse).modules =
      dragCourse.modules.map (fun m =>
        if m.id = "m1" then
          { m with lessons :=
              stampLessons (moveItem (dragCourse.modules.get
                ⟨0, by decide⟩).lessons 1 0) }
        else m)) := by
  constructor
  · have h := (onDragEnd_recomputes_sibling_orders
      ⟨⟨"modules-droppable", 0⟩, some ⟨"modules-droppable", 2⟩, "MODULES"⟩
      dragCourse ⟨"modules-droppable", 2⟩ rfl).1 rfl (by decide) (by decide)
    exact ⟨h.1, h.2.1⟩
  · have h := (onDragEnd_recomputes_sibling_orders
      ⟨⟨"m1", 1⟩, some ⟨"m1", 0⟩, "LESSONS_m1"⟩
      dragCourse ⟨"m1", 0⟩ rfl).2 "m1" (dragCourse.modules.get ⟨0, by decide⟩)
      (by decide) (by decide) (by decide) (by decide) (by decide)
      (by decide) (by decide)
    exact ⟨h.1, h.2.1⟩

/-- Witness for C9 at a concrete one-row table. -/
theorem lessonComplete_upsert_idempotent_witness :
    markLessonComplete "s1" "l1" 7
        (markLessonComplete "s1" "l1" 7 [⟨"s1", "lX", false, 5⟩]) =
      markLessonComplete "s1" "l1" 7 [⟨"s1", "lX", false, 5⟩] ∧
    ((markLessonComplete "s1" "l1" 7 [⟨"s1", "lX", false, 5⟩]).filter
        (fun r => r.student_id = "s1" ∧ r.lesson_id = "l1")).length = 1 ∧
    ((markLessonComplete "s1" "l1" 7 [⟨"s1", "lX", false, 5⟩]).all
        (fun r => r.student_id = "s1" → r.lesson_id = "l1" →
          r.is_completed = true)) = true := by
  have h := lessonComplete_upsert_idempotent "s1" "l1" 7
    [⟨"s1", "lX", false, 5⟩] (by simp)
  refine ⟨h.1, h.2.1, ?_⟩
  refine List.all_eq_true.mpr ?_
  intro r hr
  exact decide_eq_true (fun hs hl => h.2.2 r hr hs hl)


theorem upsertLesson_ok_fields {mid : Uuid} {s : DBState} {l : Lesson} {s1 : DBState}
    (h : upsertLesson mid s l = .ok s1) :
    ∃ fs, contentFields l.content = .ok fs := by
  unfold upsertLesson at h
  split at h
  · exact absurd h (by simp)
  · next fs heq => exact ⟨fs, heq⟩

theorem upsertLesson_courses_modules {mid : Uuid} {s : DBState} {l : Lesson}
    {s1 : DBState} (h : upsertLesson mid s l = .ok s1) :
    s1.courses = s.courses ∧ s1.modules = s.modules := by
  unfold upsertLesson at h
  split at h
  · exact absurd h (by simp)
  · split at h <;> (cases h; exact ⟨rfl, rfl⟩)



theorem upsertLesson_establishes {mid : Uuid} {s : DBState} {l : Lesson}
    {s1 : DBState} {fs : Option String × Option FileType × Option String × Option Int}
    (h : upsertLesson mid s l = .ok s1) (hcf : contentFields l.content = .ok fs)
    (hpar : ∀ r0 ∈ s.lessons, r0.id = l.id → r0.module_id = mid) :
    (∀ r ∈ s1.lessons, r.id = l.id → lessonRowMatches mid l fs r) ∧
    (∃ r ∈ s1.lessons, r.id = l.id) := by
  unfold upsertLesson at h
  split at h
  · exact absurd h (by simp)
  · next fields heq =>
    rw [hcf] at heq
    injection heq with hfq
    subst hfq
    split at h
    · next hany =>
      cases h
      obtain ⟨rex, hrexmem, hrexkey⟩ := List.any_eq_true.mp hany
      rw [decide_eq_true_eq] at hrexkey
      constructor
      · intro r hr hid
        obtain ⟨r0, hr0mem, hr0eq⟩ := List.mem_map.mp hr
        by_cases hk : r0.id = l.id
        · have hm := hpar r0 hr0mem hk
          rw [← hr0eq]
          unfold lessonRowMatches
          simp [hk, hm]
        · have hsame : r0 = r := by rw [← hr0eq]; simp [hk]
          rw [hsame] at hk
          exact absurd hid hk
      · refine ⟨_, List.mem_map_of_mem _ hrexmem, ?_⟩
        simp [hrexkey]
    · next hany =>
      cases h
      constructor
      · intro r hr hid
        rcases List.mem_append.mp hr with hmem | hmem
        · exact absurd (List.any_eq_true.mpr ⟨r, hmem, decide_eq_true hid⟩) hany
        · rw [List.mem_singleton] at hmem
          subst hmem
          unfold lessonRowMatches
          exact ⟨rfl, rfl, rfl, rfl, rfl, rfl, rfl⟩
      · exact ⟨_, List.mem_append_right _ (List.mem_singleton_self _), rfl⟩


theorem upsertLesson_prov {mid : Uuid} {s : DBState} {l : Lesson} {s1 : DBState}
    (h : upsertLesson mid s l = .ok s1) :
    ∀ r ∈ s1.lessons, r ∈ s.lessons ∨ (r.id = l.id ∧ (r.module_id = mid ∨
      ∃ r0 ∈ s.lessons, r0.id = r.id ∧ r0.module_id = r.module_id)) := by
  unfold upsertLesson at h
  split at h
  · exact absurd h (by simp)
  · split at h
    · cases h
      intro r hr
      obtain ⟨r0, hr0mem, hr0eq⟩ := List.mem_map.mp hr
      by_cases hk : r0.id = l.id
      · right
        refine ⟨?_, Or.inr ⟨r0, hr0mem, ?_, ?_⟩⟩ <;> rw [← hr0eq] <;> simp [hk]
      · left
        have hsame : r0 = r := by rw [← hr0eq]; simp [hk]
        rwa [← hsame]
    · cases h
      intro r hr
      rcases List.mem_append.mp hr with hmem | hmem
      · exact Or.inl hmem
      · rw [List.mem_singleton] at hmem
        subst hmem
        exact Or.inr ⟨rfl, Or.inl rfl⟩

theorem upsertLesson_keeps_keyed {mid : Uuid} {s : DBState} {l : Lesson}
    {s1 : DBState} (h : upsertLesson mid s l = .ok s1) (lid : Uuid)
    (hne : l.id ≠ lid) (P : LessonRow → Prop)
    (hall : ∀ r ∈ s.lessons, r.id = lid → P r) :
    ∀ r ∈ s1.lessons, r.id = lid → P r := by
  intro r hr hid
  rcases upsertLesson_prov h r hr with hmem | ⟨hidl, _⟩
  · exact hall r hmem hid
  · exact absurd (hidl ▸ hid) hne

theorem upsertLesson_exists_keyed {mid : Uuid} {s : DBState} {l : Lesson}
    {s1 : DBState} (h : upsertLesson mid s l = .ok s1) (lid mid0 : Uuid)
    (hne : l.id ≠ lid)
    (hex : ∃ r ∈ s.lessons, r.id = lid ∧ r.module_id = mid0) :
    ∃ r ∈ s1.lessons, r.id = lid ∧ r.module_id = mid0 := by
  obtain ⟨r, hrmem, hrid, hrmod⟩ := hex
  unfold upsertLesson at h
  split at h
  · exact absurd h (by simp)
  · split at h
    · cases h
      refine ⟨r, ?_, hrid, hrmod⟩
      refine List.mem_map.mpr ⟨r, hrmem, ?_⟩
      rw [if_neg (by rw [hrid]; exact fun he => hne he.symm)]
    · cases h
      exact ⟨r, List.mem_append_left _ hrmem, hrid, hrmod⟩

theorem upsertLesson_identity {mid : Uuid} {s : DBState} {l : Lesson}
    {fs : Option String × Option FileType × Option String × Option Int}
    (hcf : contentFields l.content = .ok fs)
    (hex : ∃ r ∈ s.lessons, r.id = l.id)
    (hall : ∀ r ∈ s.lessons, r.id = l.id →
      r.title = l.title ∧ r.order = l.order ∧ r.file_name = fs.1 ∧
      r.file_type = fs.2.1 ∧ r.file_url = fs.2.2.1 ∧ r.file_size = fs.2.2.2) :
    upsertLesson mid s l = .ok s := by
  obtain ⟨rex, hrexmem, hrexid⟩ := hex
  have hmap : s.lessons.map (fun r => if r.id = l.id then { r with title := l.title, order := l.order, file_name := fs.1, file_type := fs.2.1, file_url := fs.2.2.1, file_size := fs.2.2.2 } else r) = s.lessons := by
    have h2 : s.lessons.map (fun r => if r.id = l.id then { r with title := l.title, order := l.order, file_name := fs.1, file_type := fs.2.1, file_url := fs.2.2.1, file_size := fs.2.2.2 } else r) = s.lessons.map id := by
      refine List.map_congr_left ?_
      intro r hr
      by_cases hk : r.id = l.id
      · obtain ⟨h1, h2, h3, h4, h5, h6⟩ := hall r hr hk
        simp only [if_pos hk, id]
        rw [← h1, ← h2, ← h3, ← h4, ← h5, ← h6]
      · simp [hk]
    rw [h2, List.map_id]
  unfold upsertLesson
  rw [hcf]
  dsimp only
  rw [if_pos (List.any_eq_true.mpr ⟨rex, hrexmem, decide_eq_true hrexid⟩)]
  rw [hmap]


theorem upsertModule_courses_lessons (cid : Uuid) (s : DBState) (m : Module) :
    (upsertModule cid s m).courses = s.courses ∧
    (upsertModule cid s m).lessons = s.lessons := by
  unfold upsertModule
  split <;> exact ⟨rfl, rfl⟩

theorem upsertModule_prov (cid : Uuid) (s : DBState) (m : Module) :
    ∀ r ∈ (upsertModule cid s m).modules, r ∈ s.modules ∨ r.id = m.id := by
  unfold upsertModule
  split
  · intro r hr
    obtain ⟨r0, hr0mem, hr0eq⟩ := List.mem_map.mp hr
    by_cases hk : r0.id = m.id
    · right
      rw [← hr0eq]
      simp [hk]
    · left
      have hsame : r0 = r := by rw [← hr0eq]; simp [hk]
      rwa [← hsame]
  · intro r hr
    rcases List.mem_append.mp hr with hmem | hmem
    · exact Or.inl hmem
    · rw [List.mem_singleton] at hmem
      subst hmem
      exact Or.inr rfl

theorem upsertModule_keep (cid : Uuid) (s : DBState) (m : Module) :
    ∀ r ∈ s.modules, r.id ≠ m.id → r ∈ (upsertModule cid s m).modules := by
  unfold upsertModule
  split
  · intro r hr hne
    refine List.mem_map.mpr ⟨r, hr, ?_⟩
    rw [if_neg hne]
  · intro r hr hne
    exact List.mem_append_left _ hr

theorem upsertModule_other (cid : Uuid) (s : DBState) (m : Module) :
    ∀ r ∈ (upsertModule cid s m).modules, r.id ≠ m.id → r ∈ s.modules := by
  unfold upsertModule
  split
  · intro r hr hne
    obtain ⟨r0, hr0mem, hr0eq⟩ := List.mem_map.mp hr
    by_cases hk : r0.id = m.id
    · exfalso
      apply hne
      rw [← hr0eq]
      simp [hk]
    · have hsame : r0 = r := by rw [← hr0eq]; simp [hk]
      rwa [← hsame]
  · intro r hr hne
    rcases List.mem_append.mp hr with hmem | hmem
    · exact hmem
    · rw [List.mem_singleton] at hmem
      subst hmem
      exact absurd rfl hne

theorem upsertModule_point (cid : Uuid) (s : DBState) (m : Module) :
    ∀ r ∈ (upsertModule cid s m).modules, r.id = m.id →
      r.title = m.title ∧ r.order = m.order := by
  unfold upsertModule
  split
  · intro r hr hid
    obtain ⟨r0, hr0mem, hr0eq⟩ := List.mem_map.mp hr
    by_cases hk : r0.id = m.id
    · rw [← hr0eq]
      simp [hk]
    · have hsame : r0 = r := by rw [← hr0eq]; simp [hk]
      rw [hsame] at hk
      exact absurd hid hk
  · next hany =>
    intro r hr hid
    rcases List.mem_append.mp hr with hmem | hmem
    · exact absurd (List.any_eq_true.mpr ⟨r, hmem, decide_eq_true hid⟩) hany
    · rw [List.mem_singleton] at hmem
      subst hmem
      exact ⟨rfl, rfl⟩

theorem upsertModule_ex (cid : Uuid) (s : DBState) (m : Module) :
    ∃ r ∈ (upsertModule cid s m).modules, r.id = m.id := by
  unfold upsertModule
  split
  · next hany =>
    obtain ⟨rex, hrexmem, hrexkey⟩ := List.any_eq_true.mp hany
    rw [decide_eq_true_eq] at hrexkey
    refine ⟨_, List.mem_map_of_mem _ hrexmem, ?_⟩
    simp [hrexkey]
  · exact ⟨_, List.mem_append_right _ (List.mem_singleton_self _), rfl⟩

theorem upsertModule_identity (cid : Uuid) (s : DBState) (m : Module)
    (hex : ∃ r ∈ s.modules, r.id = m.id)
    (hall : ∀ r ∈ s.modules, r.id = m.id →
      r.title = m.title ∧ r.order = m.order) :
    upsertModule cid s m = s := by
  obtain ⟨rex, hrexmem, hrexid⟩ := hex
  have hmap : s.modules.map (fun r => if r.id = m.id then { r with title := m.title, order := m.order } else r) = s.modules := by
    have h2 : s.modules.map (fun r => if r.id = m.id then { r with title := m.title, order := m.order } else r) = s.modules.map id := by
      refine List.map_congr_left ?_
      intro r hr
      by_cases hk : r.id = m.id
      · obtain ⟨h1, h2⟩ := hall r hr hk
        simp only [if_pos hk, id]
        rw [← h1, ← h2]
      · simp [hk]
    rw [h2, List.map_id]
  unfold upsertModule
  rw [if_pos (List.any_eq_true.mpr ⟨rex, hrexmem, decide_eq_true hrexid⟩)]
  rw [hmap]

theorem upsertCourse_modules_lessons (d : Course) (tid : Uuid) (s : DBState) :
    (upsertCourse d tid s).modules = s.modules ∧
    (upsertCourse d tid s).lessons = s.lessons := by
  unfold upsertCourse
  split <;> exact ⟨rfl, rfl⟩

theorem upsertCourse_point (d : Course) (tid : Uuid) (s : DBState) :
    (∃ r ∈ (upsertCourse d tid s).courses, r.id = d.id) ∧
    ∀ r ∈ (upsertCourse d tid s).courses, r.id = d.id →
      r.title = d.title ∧ r.description = d.description ∧
      r.category = d.category ∧ r.image_url = courseImg d ∧
      r.is_published = d.isPublished := by
  unfold upsertCourse
  split
  · next hany =>
    obtain ⟨rex, hrexmem, hrexkey⟩ := List.any_eq_true.mp hany
    rw [decide_eq_true_eq] at hrexkey
    constructor
    · refine ⟨_, List.mem_map_of_mem _ hrexmem, ?_⟩
      simp [hrexkey]
    · intro r hr hid
      obtain ⟨r0, hr0mem, hr0eq⟩ := List.mem_map.mp hr
      by_cases hk : r0.id = d.id
      · rw [← hr0eq]
        simp [hk]
      · have hsame : r0 = r := by rw [← hr0eq]; simp [hk]
        rw [hsame] at hk
        exact absurd hid hk
  · next hany =>
    constructor
    · exact ⟨_, List.mem_append_right _ (List.mem_singleton_self _), rfl⟩
    · intro r hr hid
      rcases List.mem_append.mp hr with hmem | hmem
      · exact absurd (List.any_eq_true.mpr ⟨r, hmem, decide_eq_true hid⟩) hany
      · rw [List.mem_singleton] at hmem
        subst hmem
        exact ⟨rfl, rfl, rfl, rfl, rfl⟩

theorem upsertCourse_identity (d : Course) (tid : Uuid) (s : DBState)
    (hex : ∃ r ∈ s.courses, r.id = d.id)
    (hall : ∀ r ∈ s.courses, r.id = d.id →
      r.title = d.title ∧ r.description = d.description ∧
      r.category = d.category ∧ r.image_url = courseImg d ∧
      r.is_published = d.isPublished) :
    upsertCourse d tid s = s := by
  obtain ⟨rex, hrexmem, hrexid⟩ := hex
  have hmap : s.courses.map (fun r => if r.id = d.id then { r with title := d.title, description := d.description, category := d.category, image_url := courseImg d, is_published := d.isPublished } else r) = s.courses := by
    have h2 : s.courses.map (fun r => if r.id = d.id then { r with title := d.title, description := d.description, category := d.category, image_url := courseImg d, is_published := d.isPublished } else r) = s.courses.map id := by
      refine List.map_congr_left ?_
      intro r hr
      by_cases hk : r.id = d.id
      · obtain ⟨h1, h2, h3, h4, h5⟩ := hall r hr hk
        simp only [if_pos hk, id]
        rw [← h1, ← h2, ← h3, ← h4, ← h5]
      · simp [hk]
    rw [h2, List.map_id]
  unfold upsertCourse
  dsimp only
  rw [if_pos (List.any_eq_true.mpr ⟨rex, hrexmem, decide_eq_true hrexid⟩)]
  rw [hmap]


theorem deleteLessonsNotIn_facts (mid : Uuid) (keep : List Uuid) (s : DBState) :
    (deleteLessonsNotIn mid keep s).courses = s.courses ∧
    (deleteLessonsNotIn mid keep s).modules = s.modules ∧
    (∀ r ∈ (deleteLessonsNotIn mid keep s).lessons, r ∈ s.lessons) ∧
    (∀ r ∈ (deleteLessonsNotIn mid keep s).lessons,
      r.module_id = mid → r.id ∈ keep) ∧
    (∀ r ∈ s.lessons, (r.module_id ≠ mid ∨ r.id ∈ keep) →
      r ∈ (deleteLessonsNotIn mid keep s).lessons) := by
  refine ⟨rfl, rfl, ?_, ?_, ?_⟩
  · intro r hr
    exact (List.mem_filter.mp hr).1
  · intro r hr hmid
    have hp := (List.mem_filter.mp hr).2
    rw [decide_eq_true_eq] at hp
    by_contra hni
    exact hp ⟨hmid, hni⟩
  · intro r hr hc
    refine List.mem_filter.mpr ⟨hr, ?_⟩
    rw [decide_eq_true_eq]
    rintro ⟨hmid, hni⟩
    rcases hc with hc | hc
    · exact hc hmid
    · exact hni hc

theorem deleteLessonsNotIn_identity (mid : Uuid) (keep : List Uuid) (s : DBState)
    (hall : ∀ r ∈ s.lessons, r.module_id = mid → r.id ∈ keep) :
    deleteLessonsNotIn mid keep s = s := by
  unfold deleteLessonsNotIn
  have hf : s.lessons.filter (fun r => ¬(r.module_id = mid ∧ r.id ∉ keep)) = s.lessons := by
    refine List.filter_eq_self.mpr ?_
    intro r hr
    rw [decide_eq_true_eq]
    rintro ⟨hmid, hni⟩
    exact hni (hall r hr hmid)
  rw [hf]

theorem deleteModulesNotIn_facts (cid : Uuid) (keep : List Uuid) (s : DBState) :
    (deleteModulesNotIn cid keep s).courses = s.courses ∧
    (∀ r ∈ (deleteModulesNotIn cid keep s).modules, r ∈ s.modules) ∧
    (∀ r ∈ (deleteModulesNotIn cid keep s).modules,
      r.course_id = cid → r.id ∈ keep) ∧
    (∀ r ∈ s.modules, (r.course_id ≠ cid ∨ r.id ∈ keep) →
      r ∈ (deleteModulesNotIn cid keep s).modules) ∧
    (∀ r ∈ (deleteModulesNotIn cid keep s).lessons, r ∈ s.lessons) := by
  refine ⟨rfl, ?_, ?_, ?_, ?_⟩
  · intro r hr
    exact (List.mem_filter.mp hr).1
  · intro r hr hcid
    have hp := (List.mem_filter.mp hr).2
    rw [decide_eq_true_eq] at hp
    by_contra hni
    exact hp ⟨hcid, hni⟩
  · intro r hr hc
    refine List.mem_filter.mpr ⟨hr, ?_⟩
    rw [decide_eq_true_eq]
    rintro ⟨hcid, hni⟩
    rcases hc with hc | hc
    · exact hc hcid
    · exact hni hc
  · intro r hr
    exact (List.mem_filter.mp hr).1

theorem deleteModulesNotIn_cascade (cid : Uuid) (keep : List Uuid) (s : DBState)
    (r0 : ModuleRow) (hr0 : r0 ∈ s.modules) (hcid : r0.course_id = cid)
    (hni : r0.id ∉ keep) :
    ∀ l ∈ (deleteModulesNotIn cid keep s).lessons, l.module_id ≠ r0.id := by
  intro l hl
  have hp := (List.mem_filter.mp hl).2
  rw [decide_eq_true_eq] at hp
  intro hmid
  apply hp
  rw [hmid]
  exact List.mem_map_of_mem _ (List.mem_filter.mpr ⟨hr0, by
    rw [decide_eq_true_eq]; exact ⟨hcid, hni⟩⟩)

theorem deleteModulesNotIn_keeps_lessons (cid : Uuid) (keep : List Uuid)
    (s : DBState) (l : LessonRow) (hl : l ∈ s.lessons)
    (hmod : ∀ rm ∈ s.modules, rm.course_id = cid → rm.id ∉ keep →
      rm.id ≠ l.module_id) :
    l ∈ (deleteModulesNotIn cid keep s).lessons := by
  refine List.mem_filter.mpr ⟨hl, ?_⟩
  rw [decide_eq_true_eq]
  intro hmem
  obtain ⟨rm, hrmmem, hrmeq⟩ := List.mem_map.mp hmem
  have hp := (List.mem_filter.mp hrmmem).2
  rw [decide_eq_true_eq] at hp
  exact hmod rm (List.mem_filter.mp hrmmem).1 hp.1 hp.2 hrmeq

theorem deleteModulesNotIn_identity (cid : Uuid) (keep : List Uuid) (s : DBState)
    (hall : ∀ r ∈ s.modules, r.course_id = cid → r.id ∈ keep) :
    deleteModulesNotIn cid keep s = s := by
  unfold deleteModulesNotIn
  have hdead : s.modules.filter (fun r => r.course_id = cid ∧ r.id ∉ keep) = [] := by
    refine List.filter_eq_nil_iff.mpr ?_
    intro r hr
    rw [decide_eq_true_eq]
    rintro ⟨hcid, hni⟩
    exact hni (hall r hr hcid)
  rw [hdead]
  have hm : s.modules.filter (fun r => ¬(r.course_id = cid ∧ r.id ∉ keep)) = s.modules := by
    refine List.filter_eq_self.mpr ?_
    intro r hr
    rw [decide_eq_true_eq]
    rintro ⟨hcid, hni⟩
    exact hni (hall r hr hcid)
  rw [hm]
  have hl : s.lessons.filter (fun r => r.module_id ∉ ([] : List ModuleRow).map (·.id)) = s.lessons := by
    refine List.filter_eq_self.mpr ?_
    intro r hr
    simp
  rw [hl]


theorem saveLessons_split {mid : Uuid} (pre : List Lesson) {s s1 : DBState}
    {l : Lesson} {post : List Lesson}
    (h : saveLessons mid s (pre ++ l :: post) = .ok s1) :
    ∃ t1 t2, saveLessons mid s pre = .ok t1 ∧ upsertLesson mid t1 l = .ok t2 ∧
      saveLessons mid t2 post = .ok s1 := by
  induction pre generalizing s with
  | nil =>
    rw [List.nil_append] at h
    unfold saveLessons at h
    split at h
    · exact absurd h (by simp)
    · next t2 heq => exact ⟨s, t2, rfl, heq, h⟩
  | cons p pre ih =>
    rw [List.cons_append] at h
    unfold saveLessons at h
    split at h
    · exact absurd h (by simp)
    · next t heq =>
      obtain ⟨t1, t2, h1, h2, h3⟩ := ih h
      refine ⟨t1, t2, ?_, h2, h3⟩
      unfold saveLessons
      rw [heq]
      exact h1

theorem saveLessons_courses_modules {mid : Uuid} {ls : List Lesson}
    {s s1 : DBState} (h : saveLessons mid s ls = .ok s1) :
    s1.courses = s.courses ∧ s1.modules = s.modules := by
  induction ls generalizing s with
  | nil =>
    unfold saveLessons at h
    cases h
    exact ⟨rfl, rfl⟩
  | cons l ls ih =>
    unfold saveLessons at h
    split at h
    · exact absurd h (by simp)
    · next t heq =>
      obtain ⟨h1, h2⟩ := ih h
      obtain ⟨h3, h4⟩ := upsertLesson_courses_modules heq
      exact ⟨h1.trans h3, h2.trans h4⟩

theorem saveLessons_prov {mid : Uuid} {ls : List Lesson} {s s1 : DBState}
    (h : saveLessons mid s ls = .ok s1) :
    ∀ r ∈ s1.lessons, r ∈ s.lessons ∨ ((∃ l ∈ ls, r.id = l.id) ∧
      (r.module_id = mid ∨
        ∃ r0 ∈ s.lessons, r0.id = r.id ∧ r0.module_id = r.module_id)) := by
  induction ls generalizing s with
  | nil =>
    unfold saveLessons at h
    cases h
    intro r hr
    exact Or.inl hr
  | cons l ls ih =>
    unfold saveLessons at h
    split at h
    · exact absurd h (by simp)
    · next t heq =>
      intro r hr
      rcases ih h r hr with hmem | ⟨⟨l2, hl2, hid2⟩, hm⟩
      · rcases upsertLesson_prov heq r hmem with hmem2 | ⟨hid, hm2⟩
        · exact Or.inl hmem2
        · refine Or.inr ⟨⟨l, List.mem_cons_self _ _, hid⟩, ?_⟩
          rcases hm2 with hm2 | ⟨r0, hr0, hr0id, hr0m⟩
          · exact Or.inl hm2
          · exact Or.inr ⟨r0, hr0, hr0id, hr0m⟩
      · refine Or.inr ⟨⟨l2, List.mem_cons_of_mem _ hl2, hid2⟩, ?_⟩
        rcases hm with hm | ⟨r0, hr0, hr0id, hr0m⟩
        · exact Or.inl hm
        · rcases upsertLesson_prov heq r0 hr0 with hmem2 | ⟨hid0, hm0⟩
          · exact Or.inr ⟨r0, hmem2, hr0id, hr0m⟩
          · rcases hm0 with hm0 | ⟨r00, hr00, hr00id, hr00m⟩
            · exact Or.inl (hr0m ▸ hm0)
            · exact Or.inr ⟨r00, hr00, hr00id.trans hr0id, hr00m.trans hr0m⟩

theorem saveLessons_keeps_keyed {mid : Uuid} {ls : List Lesson} {s s1 : DBState}
    (h : saveLessons mid s ls = .ok s1) (lid : Uuid)
    (hni : lid ∉ ls.map (·.id)) (P : LessonRow → Prop)
    (hall : ∀ r ∈ s.lessons, r.id = lid → P r) :
    ∀ r ∈ s1.lessons, r.id = lid → P r := by
  intro r hr hid
  rcases saveLessons_prov h r hr with hmem | ⟨⟨l2, hl2, hid2⟩, _⟩
  · exact hall r hmem hid
  · exact absurd (List.mem_map.mpr ⟨l2, hl2, hid2.symm.trans hid⟩) hni

theorem saveLessons_exists_keyed {mid : Uuid} {ls : List Lesson} {s s1 : DBState}
    (h : saveLessons mid s ls = .ok s1) (lid mid0 : Uuid)
    (hni : lid ∉ ls.map (·.id))
    (hex : ∃ r ∈ s.lessons, r.id = lid ∧ r.module_id = mid0) :
    ∃ r ∈ s1.lessons, r.id = lid ∧ r.module_id = mid0 := by
  induction ls generalizing s with
  | nil =>
    unfold saveLessons at h
    cases h
    exact hex
  | cons l ls ih =>
    unfold saveLessons at h
    split at h
    · exact absurd h (by simp)
    · next t heq =>
      rw [List.map_cons] at hni
      have hne : l.id ≠ lid := fun he => hni (he ▸ List.mem_cons_self _ _)
      exact ih h (fun hmem => hni (List.mem_cons_of_mem _ hmem))
        (upsertLesson_exists_keyed heq lid mid0 hne hex)

theorem saveLessons_identity {mid : Uuid} {ls : List Lesson} {s : DBState}
    (hall : ∀ l ∈ ls, ∃ fs, contentFields l.content = .ok fs ∧
      (∃ r ∈ s.lessons, r.id = l.id) ∧
      (∀ r ∈ s.lessons, r.id = l.id →
        r.title = l.title ∧ r.order = l.order ∧ r.file_name = fs.1 ∧
        r.file_type = fs.2.1 ∧ r.file_url = fs.2.2.1 ∧ r.file_size = fs.2.2.2)) :
    saveLessons mid s ls = .ok s := by
  induction ls with
  | nil => rfl
  | cons l ls ih =>
    obtain ⟨fs, hcf, hex, hpt⟩ := hall l (List.mem_cons_self _ _)
    unfold saveLessons
    rw [upsertLesson_identity hcf hex hpt]
    exact ih (fun l2 hl2 => hall l2 (List.mem_cons_of_mem _ hl2))

theorem applyModule_inv {cid : Uuid} {s : DBState} {m : Module} {s1 : DBState}
    (h : applyModule cid s m = .ok s1) :
    ∃ t2, saveLessons m.id (upsertModule cid s m) m.lessons = .ok t2 ∧
      s1 = deleteLessonsNotIn m.id (m.lessons.map (·.id)) t2 := by
  unfold applyModule at h
  split at h
  · exact absurd h (by simp)
  · next t2 heq =>
    cases h
    exact ⟨t2, heq, rfl⟩

theorem applyModule_courses {cid : Uuid} {s : DBState} {m : Module} {s1 : DBState}
    (h : applyModule cid s m = .ok s1) : s1.courses = s.courses := by
  obtain ⟨t2, heq, hdel⟩ := applyModule_inv h
  rw [hdel]
  have h1 := (deleteLessonsNotIn_facts m.id (m.lessons.map (·.id)) t2).1
  rw [h1, (saveLessons_courses_modules heq).1,
    (upsertModule_courses_lessons cid s m).1]

theorem applyModule_modules {cid : Uuid} {s : DBState} {m : Module} {s1 : DBState}
    (h : applyModule cid s m = .ok s1) :
    s1.modules = (upsertModule cid s m).modules := by
  obtain ⟨t2, heq, hdel⟩ := applyModule_inv h
  rw [hdel]
  have h1 := (deleteLessonsNotIn_facts m.id (m.lessons.map (·.id)) t2).2.1
  rw [h1, (saveLessons_courses_modules heq).2]

theorem applyModule_lessons_prov {cid : Uuid} {s : DBState} {m : Module}
    {s1 : DBState} (h : applyModule cid s m = .ok s1) :
    ∀ r ∈ s1.lessons, r ∈ s.lessons ∨ ((∃ l ∈ m.lessons, r.id = l.id) ∧
      (r.module_id = m.id ∨
        ∃ r0 ∈ s.lessons, r0.id = r.id ∧ r0.module_id = r.module_id)) := by
  obtain ⟨t2, heq, hdel⟩ := applyModule_inv h
  intro r hr
  rw [hdel] at hr
  have hsub := (deleteLessonsNotIn_facts m.id (m.lessons.map (·.id)) t2).2.2.1
  have hr2 := hsub r hr
  have hul := (upsertModule_courses_lessons cid s m).2
  rcases saveLessons_prov heq r hr2 with hmem | ⟨hexl, hm⟩
  · rw [hul] at hmem
    exact Or.inl hmem
  · refine Or.inr ⟨hexl, ?_⟩
    rcases hm with hm | ⟨r0, hr0, hr0id, hr0m⟩
    · exact Or.inl hm
    · rw [hul] at hr0
      exact Or.inr ⟨r0, hr0, hr0id, hr0m⟩

theorem applyModule_scoped {cid : Uuid} {s : DBState} {m : Module} {s1 : DBState}
    (h : applyModule cid s m = .ok s1) :
    ∀ r ∈ s1.lessons, r.module_id = m.id → r.id ∈ m.lessons.map (·.id) := by
  obtain ⟨t2, heq, hdel⟩ := applyModule_inv h
  intro r hr
  rw [hdel] at hr
  exact (deleteLessonsNotIn_facts m.id (m.lessons.map (·.id)) t2).2.2.2.1 r hr

theorem applyModule_keeps_keyed {cid : Uuid} {s : DBState} {m : Module}
    {s1 : DBState} (h : applyModule cid s m = .ok s1) (lid : Uuid)
    (hni : lid ∉ m.lessons.map (·.id)) (P : LessonRow → Prop)
    (hall : ∀ r ∈ s.lessons, r.id = lid → P r) :
    ∀ r ∈ s1.lessons, r.id = lid → P r := by
  intro r hr hid
  rcases applyModule_lessons_prov h r hr with hmem | ⟨⟨l2, hl2, hid2⟩, _⟩
  · exact hall r hmem hid
  · exact absurd (List.mem_map.mpr ⟨l2, hl2, hid2.symm.trans hid⟩) hni

theorem applyModule_exists_keyed {cid : Uuid} {s : DBState} {m : Module}
    {s1 : DBState} (h : applyModule cid s m = .ok s1) (lid mid0 : Uuid)
    (hni : lid ∉ m.lessons.map (·.id)) (hnm : mid0 ≠ m.id)
    (hex : ∃ r ∈ s.lessons, r.id = lid ∧ r.module_id = mid0) :
    ∃ r ∈ s1.lessons, r.id = lid ∧ r.module_id = mid0 := by
  obtain ⟨t2, heq, hdel⟩ := applyModule_inv h
  have hex2 : ∃ r ∈ t2.lessons, r.id = lid ∧ r.module_id = mid0 := by
    refine saveLessons_exists_keyed heq lid mid0 hni ?_
    rw [(upsertModule_courses_lessons cid s m).2]
    exact hex
  obtain ⟨r, hrmem, hrid, hrm⟩ := hex2
  refine ⟨r, ?_, hrid, hrm⟩
  rw [hdel]
  exact (deleteLessonsNotIn_facts m.id (m.lessons.map (·.id)) t2).2.2.2.2 r hrmem
    (Or.inl (by rw [hrm]; exact hnm))

theorem applyModule_identity {cid : Uuid} {s : DBState} {m : Module}
    (hmex : ∃ r ∈ s.modules, r.id = m.id)
    (hmpt : ∀ r ∈ s.modules, r.id = m.id → r.title = m.title ∧ r.order = m.order)
    (hlall : ∀ l ∈ m.lessons, ∃ fs, contentFields l.content = .ok fs ∧
      (∃ r ∈ s.lessons, r.id = l.id) ∧
      (∀ r ∈ s.lessons, r.id = l.id →
        r.title = l.title ∧ r.order = l.order ∧ r.file_name = fs.1 ∧
        r.file_type = fs.2.1 ∧ r.file_url = fs.2.2.1 ∧ r.file_size = fs.2.2.2))
    (hscope : ∀ r ∈ s.lessons, r.module_id = m.id → r.id ∈ m.lessons.map (·.id)) :
    applyModule cid s m = .ok s := by
  unfold applyModule
  rw [upsertModule_identity cid s m hmex hmpt]
  rw [saveLessons_identity hlall]
  dsimp only
  rw [deleteLessonsNotIn_identity m.id (m.lessons.map (·.id)) s hscope]


theorem saveModules_split {cid : Uuid} (pre : List Module) {s s1 : DBState}
    {m : Module} {post : List Module}
    (h : saveModules cid s (pre ++ m :: post) = .ok s1) :
    ∃ t1 t2, saveModules cid s pre = .ok t1 ∧ applyModule cid t1 m = .ok t2 ∧
      saveModules cid t2 post = .ok s1 := by
  induction pre generalizing s with
  | nil =>
    rw [List.nil_append] at h
    unfold saveModules at h
    split at h
    · exact absurd h (by simp)
    · next t2 heq => exact ⟨s, t2, rfl, heq, h⟩
  | cons p pre ih =>
    rw [List.cons_append] at h
    unfold saveModules at h
    split at h
    · exact absurd h (by simp)
    · next t heq =>
      obtain ⟨t1, t2, h1, h2, h3⟩ := ih h
      refine ⟨t1, t2, ?_, h2, h3⟩
      unfold saveModules
      rw [heq]
      exact h1

theorem saveModules_courses {cid : Uuid} {ms : List Module} {s s1 : DBState}
    (h : saveModules cid s ms = .ok s1) : s1.courses = s.courses := by
  induction ms generalizing s with
  | nil =>
    unfold saveModules at h
    cases h
    rfl
  | cons m ms ih =>
    unfold saveModules at h
    split at h
    · exact absurd h (by simp)
    · next t heq => exact (ih h).trans (applyModule_courses heq)

theorem saveModules_modules_prov {cid : Uuid} {ms : List Module} {s s1 : DBState}
    (h : saveModules cid s ms = .ok s1) :
    ∀ r ∈ s1.modules, r ∈ s.modules ∨ r.id ∈ ms.map (·.id) := by
  induction ms generalizing s with
  | nil =>
    unfold saveModules at h
    cases h
    exact fun r hr => Or.inl hr
  | cons m ms ih =>
    unfold saveModules at h
    split at h
    · exact absurd h (by simp)
    · next t heq =>
      intro r hr
      rcases ih h r hr with hmem | hid
      · rw [applyModule_modules heq] at hmem
        rcases upsertModule_prov cid s m r hmem with hmem2 | hid2
        · exact Or.inl hmem2
        · exact Or.inr (by rw [List.map_cons, hid2]; exact List.mem_cons_self _ _)
      · exact Or.inr (by rw [List.map_cons]; exact List.mem_cons_of_mem _ hid)

theorem saveModules_modules_keep {cid : Uuid} {ms : List Module} {s s1 : DBState}
    (h : saveModules cid s ms = .ok s1) :
    ∀ r ∈ s.modules, r.id ∉ ms.map (·.id) → r ∈ s1.modules := by
  induction ms generalizing s with
  | nil =>
    unfold saveModules at h
    cases h
    exact fun r hr _ => hr
  | cons m ms ih =>
    unfold saveModules at h
    split at h
    · exact absurd h (by simp)
    · next t heq =>
      intro r hr hni
      rw [List.map_cons] at hni
      have hne : r.id ≠ m.id := fun he => hni (he ▸ List.mem_cons_self _ _)
      have hr2 : r ∈ t.modules := by
        rw [applyModule_modules heq]
        exact upsertModule_keep cid s m r hr hne
      exact ih h r hr2 (fun hmem => hni (List.mem_cons_of_mem _ hmem))

theorem saveModules_modules_other {cid : Uuid} {ms : List Module} {s s1 : DBState}
    (h : saveModules cid s ms = .ok s1) :
    ∀ r ∈ s1.modules, r.id ∉ ms.map (·.id) → r ∈ s.modules := by
  induction ms generalizing s with
  | nil =>
    unfold saveModules at h
    cases h
    exact fun r hr _ => hr
  | cons m ms ih =>
    unfold saveModules at h
    split at h
    · exact absurd h (by simp)
    · next t heq =>
      intro r hr hni
      rw [List.map_cons] at hni
      have hne : r.id ≠ m.id := fun he => hni (he ▸ List.mem_cons_self _ _)
      have hr2 : r ∈ t.modules :=
        ih h r hr (fun hmem => hni (List.mem_cons_of_mem _ hmem))
      rw [applyModule_modules heq] at hr2
      exact upsertModule_other cid s m r hr2 hne

theorem saveModules_lessons_prov {cid : Uuid} {ms : List Module} {s s1 : DBState}
    (h : saveModules cid s ms = .ok s1) :
    ∀ r ∈ s1.lessons, r ∈ s.lessons ∨
      ((∃ m ∈ ms, ∃ l ∈ m.lessons, r.id = l.id) ∧
        ((∃ m ∈ ms, r.module_id = m.id) ∨
          ∃ r0 ∈ s.lessons, r0.id = r.id ∧ r0.module_id = r.module_id)) := by
  induction ms generalizing s with
  | nil =>
    unfold saveModules at h
    cases h
    exact fun r hr => Or.inl hr
  | cons m ms ih =>
    unfold saveModules at h
    split at h
    · exact absurd h (by simp)
    · next t heq =>
      intro r hr
      rcases ih h r hr with hmem | ⟨⟨m2, hm2, l2, hl2, hid2⟩, hm⟩
      · rcases applyModule_lessons_prov heq r hmem with hmem2 | ⟨⟨l, hl, hid⟩, hmm⟩
        · exact Or.inl hmem2
        · refine Or.inr ⟨⟨m, List.mem_cons_self _ _, l, hl, hid⟩, ?_⟩
          rcases hmm with hmm | ⟨r0, hr0, hr0id, hr0m⟩
          · exact Or.inl ⟨m, List.mem_cons_self _ _, hmm⟩
          · exact Or.inr ⟨r0, hr0, hr0id, hr0m⟩
      · refine Or.inr ⟨⟨m2, List.mem_cons_of_mem _ hm2, l2, hl2, hid2⟩, ?_⟩
        rcases hm with ⟨m3, hm3, hmid3⟩ | ⟨r0, hr0, hr0id, hr0m⟩
        · exact Or.inl ⟨m3, List.mem_cons_of_mem _ hm3, hmid3⟩
        · rcases applyModule_lessons_prov heq r0 hr0 with hmem2 |
            ⟨⟨l, hl, hid⟩, hmm⟩
          · exact Or.inr ⟨r0, hmem2, hr0id, hr0m⟩
          · rcases hmm with hmm | ⟨r00, hr00, hr00id, hr00m⟩
            · exact Or.inl ⟨m, List.mem_cons_self _ _, hr0m ▸ hmm⟩
            · exact Or.inr ⟨r00, hr00, hr00id.trans hr0id, hr00m.trans hr0m⟩

theorem saveModules_keeps_keyed {cid : Uuid} {ms : List Module} {s s1 : DBState}
    (h : saveModules cid s ms = .ok s1) (lid : Uuid)
    (hni : ∀ m ∈ ms, lid ∉ m.lessons.map (·.id)) (P : LessonRow → Prop)
    (hall : ∀ r ∈ s.lessons, r.id = lid → P r) :
    ∀ r ∈ s1.lessons, r.id = lid → P r := by
  intro r hr hid
  rcases saveModules_lessons_prov h r hr with hmem | ⟨⟨m2, hm2, l2, hl2, hid2⟩, _⟩
  · exact hall r hmem hid
  · exact absurd (List.mem_map.mpr ⟨l2, hl2, hid2.symm.trans hid⟩) (hni m2 hm2)

theorem saveModules_exists_keyed {cid : Uuid} {ms : List Module} {s s1 : DBState}
    (h : saveModules cid s ms = .ok s1) (lid mid0 : Uuid)
    (hni : ∀ m ∈ ms, lid ∉ m.lessons.map (·.id))
    (hnm : ∀ m ∈ ms, mid0 ≠ m.id)
    (hex : ∃ r ∈ s.lessons, r.id = lid ∧ r.module_id = mid0) :
    ∃ r ∈ s1.lessons, r.id = lid ∧ r.module_id = mid0 := by
  induction ms generalizing s with
  | nil =>
    unfold saveModules at h
    cases h
    exact hex
  | cons m ms ih =>
    unfold saveModules at h
    split at h
    · exact absurd h (by simp)
    · next t heq =>
      refine ih h (fun m2 hm2 => hni m2 (List.mem_cons_of_mem _ hm2))
        (fun m2 hm2 => hnm m2 (List.mem_cons_of_mem _ hm2)) ?_
      exact applyModule_exists_keyed heq lid mid0
        (hni m (List.mem_cons_self _ _)) (hnm m (List.mem_cons_self _ _)) hex

theorem saveModules_scoped {cid : Uuid} {ms : List Module} {s s1 : DBState}
    (h : saveModules cid s ms = .ok s1) (hnd : (ms.map (·.id)).Nodup) :
    ∀ m ∈ ms, ∀ r ∈ s1.lessons, r.module_id = m.id →
      r.id ∈ m.lessons.map (·.id) := by
  induction ms generalizing s with
  | nil => exact fun m hm => absurd hm (List.not_mem_nil m)
  | cons m0 ms ih =>
    unfold saveModules at h
    split at h
    · exact absurd h (by simp)
    · next t heq =>
      rw [List.map_cons, List.nodup_cons] at hnd
      intro m hm r hr hmid
      rcases List.mem_cons.mp hm with hm | hm
      · subst hm
        rcases saveModules_lessons_prov h r hr with hmem |
          ⟨⟨m2, hm2, l2, hl2, hid2⟩, hmm⟩
        · exact applyModule_scoped heq r hmem hmid
        · rcases hmm with ⟨m3, hm3, hmid3⟩ | ⟨r0, hr0, hr0id, hr0m⟩
          · exfalso
            apply hnd.1
            rw [hmid.symm.trans hmid3]
            exact List.mem_map.mpr ⟨m3, hm3, rfl⟩
          · have := applyModule_scoped heq r0 hr0 (by rw [hr0m, hmid])
            rwa [hr0id] at this
      · exact ih h hnd.2 m hm r hr hmid

theorem saveModules_identity {cid : Uuid} {ms : List Module} {s : DBState}
    (hall : ∀ m ∈ ms,
      (∃ r ∈ s.modules, r.id = m.id) ∧
      (∀ r ∈ s.modules, r.id = m.id → r.title = m.title ∧ r.order = m.order) ∧
      (∀ l ∈ m.lessons, ∃ fs, contentFields l.content = .ok fs ∧
        (∃ r ∈ s.lessons, r.id = l.id) ∧
        (∀ r ∈ s.lessons, r.id = l.id →
          r.title = l.title ∧ r.order = l.order ∧ r.file_name = fs.1 ∧
          r.file_type = fs.2.1 ∧ r.file_url = fs.2.2.1 ∧ r.file_size = fs.2.2.2)) ∧
      (∀ r ∈ s.lessons, r.module_id = m.id → r.id ∈ m.lessons.map (·.id))) :
    saveModules cid s ms = .ok s := by
  induction ms with
  | nil => rfl
  | cons m ms ih =>
    obtain ⟨hmex, hmpt, hlall, hscope⟩ := hall m (List.mem_cons_self _ _)
    unfold saveModules
    rw [applyModule_identity hmex hmpt hlall hscope]
    exact ih (fun m2 hm2 => hall m2 (List.mem_cons_of_mem _ hm2))


theorem save_ok_inv {caller : Uuid} {d : Course} {s s1 : DBState}
    (h : save_course_with_children caller d s = .ok s1) :
    ∃ tid s2, d.teacher_id = some tid ∧ tid = caller ∧
      saveModules d.id (upsertCourse d tid s) d.modules = .ok s2 ∧
      s1 = deleteModulesNotIn d.id (d.modules.map (·.id)) s2 := by
  unfold save_course_with_children at h
  split at h
  · exact absurd h (by simp)
  · next tid htid =>
    split at h
    · next hcaller =>
      split at h
      · exact absurd h (by simp)
      · next s2 heq =>
        cases h
        exact ⟨tid, s2, htid, hcaller, heq, rfl⟩
    · exact absurd h (by simp)


/-- C3: after a successful save, every module row of the course not among
the input module ids is gone together with all of its lessons (the second
conjunct, using the primary-key uniqueness of the prior state), and every
lesson row sitting under a module of the input tree carries one of that
module's input lesson ids; an empty input list at either level therefore
deletes everything under that parent. -/
theorem saveCourse_deletion_completeness
    (caller : Uuid) (d : Course) (s s1 : DBState)
    (hndM : (d.modules.map (·.id)).Nodup)
    (hpkM : (s.modules.map (·.id)).Nodup)
    (hok : save_course_with_children caller d s = .ok s1) :
    (∀ r ∈ s1.modules, r.course_id = d.id → r.id ∈ d.modules.map (·.id)) ∧
    (∀ r0 ∈ s.modules, r0.course_id = d.id → r0.id ∉ d.modules.map (·.id) →
      (∀ r ∈ s1.modules, r.id ≠ r0.id) ∧
      (∀ l ∈ s1.lessons, l.module_id ≠ r0.id)) ∧
    (∀ m ∈ d.modules, ∀ l ∈ s1.lessons, l.module_id = m.id →
      l.id ∈ m.lessons.map (·.id)) := by
  obtain ⟨tid, s2, htid, hcaller, heq, hdel⟩ := save_ok_inv hok
  have hucm := (upsertCourse_modules_lessons d tid s).1
  refine ⟨?_, ?_, ?_⟩
  · intro r hr hcid
    rw [hdel] at hr
    exact (deleteModulesNotIn_facts d.id (d.modules.map (·.id)) s2).2.2.1 r hr hcid
  · intro r0 hr0 hcid hni
    have hr0s2 : r0 ∈ s2.modules := by
      refine saveModules_modules_keep heq r0 ?_ hni
      rw [hucm]
      exact hr0
    constructor
    · intro r hr
      intro hideq
      have hrs2 : r ∈ s2.modules := by
        rw [hdel] at hr
        exact (deleteModulesNotIn_facts d.id (d.modules.map (·.id)) s2).2.1 r hr
      have hrs : r ∈ s.modules := by
        have := saveModules_modules_other heq r hrs2 (by rw [hideq]; exact hni)
        rwa [hucm] at this
      have hreq : r = r0 := List.inj_on_of_nodup_map hpkM hrs hr0 hideq
      subst hreq
      rw [hdel] at hr
      exact hni (hideq ▸
        (deleteModulesNotIn_facts d.id (d.modules.map (·.id)) s2).2.2.1 r hr hcid)
    · intro l hl
      rw [hdel] at hl
      exact deleteModulesNotIn_cascade d.id (d.modules.map (·.id)) s2 r0 hr0s2
        hcid hni l hl
  · intro m hm l hl hmid
    have hls2 : l ∈ s2.lessons := by
      rw [hdel] at hl
      exact (deleteModulesNotIn_facts d.id (d.modules.map (·.id)) s2).2.2.2.2 l hl
    exact saveModules_scoped heq hndM m hm l hls2 hmid

/-- Witness for C3: the successful save of `goodTree` over `fixState`
leaves no module of the course outside the input id set. -/
theorem saveCourse_deletion_completeness_witness :
    ((runTransaction (save_course_with_children "t" goodTree)
        fixState).modules.all
      (fun r => r.course_id = goodTree.id →
        r.id ∈ goodTree.modules.map (·.id))) = true := by
  have hok : save_course_with_children "t" goodTree fixState =
      .ok (runTransaction (save_course_with_children "t" goodTree) fixState) := by
    rfl
  have h := (saveCourse_deletion_completeness "t" goodTree fixState _
    (by decide) (by decide) hok).1
  refine List.all_eq_true.mpr ?_
  intro r hr
  exact decide_eq_true (fun hc => h r hr hc)


theorem upsertLesson_writes {mid : Uuid} {s : DBState} {l : Lesson}
    {s1 : DBState} {fs : Option String × Option FileType × Option String × Option Int}
    (h : upsertLesson mid s l = .ok s1) (hcf : contentFields l.content = .ok fs) :
    ∀ r ∈ s1.lessons, r.id = l.id →
      r.title = l.title ∧ r.order = l.order ∧ r.file_name = fs.1 ∧
      r.file_type = fs.2.1 ∧ r.file_url = fs.2.2.1 ∧ r.file_size = fs.2.2.2 := by
  unfold upsertLesson at h
  rw [hcf] at h
  dsimp only at h
  split at h
  · cases h
    intro r hr hid
    obtain ⟨r0, hr0mem, hr0eq⟩ := List.mem_map.mp hr
    by_cases hk : r0.id = l.id
    · rw [← hr0eq]
      simp [hk]
    · have hsame : r0 = r := by rw [← hr0eq]; simp [hk]
      rw [hsame] at hk
      exact absurd hid hk
  · next hany =>
    cases h
    intro r hr hid
    rcases List.mem_append.mp hr with hmem | hmem
    · exact absurd (List.any_eq_true.mpr ⟨r, hmem, decide_eq_true hid⟩) hany
    · rw [List.mem_singleton] at hmem
      subst hmem
      exact ⟨rfl, rfl, rfl, rfl, rfl, rfl⟩

theorem saveCourse_writes_lesson_fields
    {caller : Uuid} {d : Course} {s s1 : DBState}
    (hndL : (d.modules.flatMap (fun m => m.lessons.map (·.id))).Nodup)
    (hok : save_course_with_children caller d s = .ok s1)
    {m : Module} (hm : m ∈ d.modules) {l : Lesson} (hl : l ∈ m.lessons) :
    ∃ fs, contentFields l.content = .ok fs ∧
      ∀ r ∈ s1.lessons, r.id = l.id →
        r.title = l.title ∧ r.order = l.order ∧ r.file_name = fs.1 ∧
        r.file_type = fs.2.1 ∧ r.file_url = fs.2.2.1 ∧ r.file_size = fs.2.2.2 := by
  obtain ⟨tid, s2, htid, hcaller, heq, hdel⟩ := save_ok_inv hok
  obtain ⟨pre, post, hsplitM⟩ := List.append_of_mem hm
  obtain ⟨lpre, lpost, hsplitL⟩ := List.append_of_mem hl
  rw [hsplitM] at heq hndL
  rw [List.flatMap_append, List.flatMap_cons] at hndL
  have hnd1 := (List.nodup_append.mp hndL).2.1
  have hnd2 := List.nodup_append.mp hnd1
  have hmids : (m.lessons.map (·.id)).Nodup := hnd2.1
  rw [hsplitL, List.map_append, List.map_cons] at hmids
  have hA : l.id ∉ lpost.map (·.id) :=
    (List.nodup_cons.mp (List.nodup_append.mp hmids).2.1).1
  have hB : ∀ m2 ∈ post, l.id ∉ m2.lessons.map (·.id) := by
    intro m2 hm2 hmem
    have hlmem : l.id ∈ m.lessons.map (·.id) := by
      rw [hsplitL, List.map_append, List.map_cons]
      exact List.mem_append_right _ (List.mem_cons_self _ _)
    have hpost : l.id ∈ post.flatMap (fun m => m.lessons.map (·.id)) :=
      List.mem_flatMap.mpr ⟨m2, hm2, hmem⟩
    exact hnd2.2.2 hlmem hpost
  obtain ⟨t1, t2, hpre, hmstep, hpost⟩ := saveModules_split pre heq
  obtain ⟨tl2, hsl, hdl⟩ := applyModule_inv hmstep
  rw [hsplitL] at hsl
  obtain ⟨u1, u2, hlpre, hlstep, hlpost⟩ := saveLessons_split lpre hsl
  obtain ⟨fs, hcf⟩ := upsertLesson_ok_fields hlstep
  refine ⟨fs, hcf, ?_⟩
  have hP2 := upsertLesson_writes hlstep hcf
  have hP3 := saveLessons_keeps_keyed hlpost l.id hA _ hP2
  have hP4 : ∀ r ∈ t2.lessons, r.id = l.id →
      r.title = l.title ∧ r.order = l.order ∧ r.file_name = fs.1 ∧
      r.file_type = fs.2.1 ∧ r.file_url = fs.2.2.1 ∧ r.file_size = fs.2.2.2 := by
    intro r hr hid
    rw [hdl] at hr
    exact hP3 r
      ((deleteLessonsNotIn_facts m.id (m.lessons.map (fun x => x.id)) tl2).2.2.1 r hr)
      hid
  have hP5 := saveModules_keeps_keyed hpost l.id hB _ hP4
  intro r hr hid
  rw [hdel] at hr
  exact hP5 r
    ((deleteModulesNotIn_facts d.id (d.modules.map (fun x => x.id)) s2).2.2.2.2 r hr)
    hid


/-- C4: for every lesson of the input tree (tree lesson ids
duplicate-free), a successful save leaves every persisted row carrying
that lesson's id with the four file columns written from the input:
explicit `NULL`s when `content` is `null` or absent (clearing any
previously attached file), the content's name/type/url/size when it is
present. -/
theorem saveCourse_content_fields_written
    (caller : Uuid) (d : Course) (s s1 : DBState)
    (hndL : (d.modules.flatMap (fun m => m.lessons.map (·.id))).Nodup)
    (hok : save_course_with_children caller d s = .ok s1)
    (m : Module) (hm : m ∈ d.modules) (l : Lesson) (hl : l ∈ m.lessons) :
    (l.content = none → ∀ r ∈ s1.lessons, r.id = l.id →
      r.file_name = none ∧ r.file_type = none ∧
      r.file_url = none ∧ r.file_size = none) ∧
    (∀ c0, l.content = some c0 → ∃ ft, castFileType c0.type = .ok ft ∧
      ∀ r ∈ s1.lessons, r.id = l.id →
        r.file_name = some c0.name ∧ r.file_type = some ft ∧
        r.file_url = some c0.url ∧ r.file_size = some c0.size) := by
  obtain ⟨fs, hcf, hall⟩ := saveCourse_writes_lesson_fields hndL hok hm hl
  constructor
  · intro hnone r hr hid
    rw [hnone] at hcf
    have hfs : fs = (none, none, none, none) := by
      unfold contentFields at hcf
      dsimp only at hcf
      exact (Except.ok.inj hcf).symm
    subst hfs
    obtain ⟨_, _, h3, h4, h5, h6⟩ := hall r hr hid
    exact ⟨h3, h4, h5, h6⟩
  · intro c0 hsome
    rw [hsome] at hcf
    unfold contentFields at hcf
    dsimp only at hcf
    cases hct : castFileType c0.type with
    | error e =>
      rw [hct] at hcf
      exact absurd hcf (by simp)
    | ok ft =>
      rw [hct] at hcf
      have hfs : fs = (some c0.name, some ft, some c0.url, some c0.size) :=
        (Except.ok.inj hcf).symm
      subst hfs
      refine ⟨ft, rfl, ?_⟩
      intro r hr hid
      obtain ⟨_, _, h3, h4, h5, h6⟩ := hall r hr hid
      exact ⟨h3, h4, h5, h6⟩

/-- Witness for C4: saving `goodTree` over `fixState` clears the file
columns of lesson `l0` (content `null` after previously having a file) and
writes the video fields of lesson `l1`. -/
theorem saveCourse_content_fields_written_witness :
    ((runTransaction (save_course_with_children "t" goodTree)
        fixState).lessons.all
      (fun r => r.id = "l0" →
        r.file_name = none ∧ r.file_type = none ∧
        r.file_url = none ∧ r.file_size = none)) = true ∧
    ((runTransaction (save_course_with_children "t" goodTree)
        fixState).lessons.all
      (fun r => r.id = "l1" →
        r.file_name = some "b.mp4" ∧ r.file_type = some .video ∧
        r.file_url = some "u3" ∧ r.file_size = some 7)) = true := by
  have hok : save_course_with_children "t" goodTree fixState =
      .ok (runTransaction (save_course_with_children "t" goodTree) fixState) := by
    rfl
  constructor
  · have h := (saveCourse_content_fields_written "t" goodTree fixState _
      (by decide) hok (goodTree.modules.get ⟨0, by decide⟩) (by decide)
      ((goodTree.modules.get ⟨0, by decide⟩).lessons.get ⟨0, by decide⟩)
      (by decide)).1 rfl
    refine List.all_eq_true.mpr ?_
    intro r hr
    exact decide_eq_true (fun hid => h r hr hid)
  · have h := (saveCourse_content_fields_written "t" goodTree fixState _
      (by decide) hok (goodTree.modules.get ⟨1, by decide⟩) (by decide)
      ((goodTree.modules.get ⟨1, by decide⟩).lessons.get ⟨0, by decide⟩)
      (by decide)).2 ⟨"b.mp4", "video", "u3", 7⟩ rfl
    obtain ⟨ft, hft, hall⟩ := h
    have hftv : ft = FileType.video := by
      have : Except.ok FileType.video = Except.ok ft :=
        (show castFileType "video" = .ok .video from rfl).symm.trans hft
      exact (Except.ok.inj this).symm
    subst hftv
    refine List.all_eq_true.mpr ?_
    intro r hr
    exact decide_eq_true (fun hid => hall r hr hid)


theorem save_ok_module_point {caller : Uuid} {d : Course} {s s1 : DBState}
    (hndM : (d.modules.map (·.id)).Nodup)
    (hok : save_course_with_children caller d s = .ok s1)
    {m : Module} (hm : m ∈ d.modules) :
    (∃ r ∈ s1.modules, r.id = m.id) ∧
    (∀ r ∈ s1.modules, r.id = m.id → r.title = m.title ∧ r.order = m.order) := by
  obtain ⟨tid, s2, htid, hcaller, heq, hdel⟩ := save_ok_inv hok
  obtain ⟨pre, post, hsplitM⟩ := List.append_of_mem hm
  have hmininput : m.id ∈ d.modules.map (·.id) := List.mem_map.mpr ⟨m, hm, rfl⟩
  rw [hsplitM] at heq hndM
  rw [List.map_append, List.map_cons] at hndM
  have hpostids : m.id ∉ post.map (·.id) :=
    (List.nodup_cons.mp (List.nodup_append.mp hndM).2.1).1
  obtain ⟨t1, t2, hpre, hmstep, hpost⟩ := saveModules_split pre heq
  have ht2 := applyModule_modules hmstep
  have hex2 : ∃ r ∈ t2.modules, r.id = m.id := by
    rw [ht2]
    exact upsertModule_ex d.id t1 m
  have hpt2 : ∀ r ∈ t2.modules, r.id = m.id →
      r.title = m.title ∧ r.order = m.order := by
    rw [ht2]
    exact upsertModule_point d.id t1 m
  obtain ⟨rw2, hrw2mem, hrw2id⟩ := hex2
  have hrw2s2 : rw2 ∈ s2.modules :=
    saveModules_modules_keep hpost rw2 hrw2mem (by rw [hrw2id]; exact hpostids)
  constructor
  · refine ⟨rw2, ?_, hrw2id⟩
    rw [hdel]
    exact (deleteModulesNotIn_facts d.id (d.modules.map (·.id)) s2).2.2.2.1 rw2
      hrw2s2 (Or.inr (by rw [hrw2id]; exact hmininput))
  · intro r hr hid
    have hrs2 : r ∈ s2.modules := by
      rw [hdel] at hr
      exact (deleteModulesNotIn_facts d.id (d.modules.map (·.id)) s2).2.1 r hr
    have hrt2 : r ∈ t2.modules :=
      saveModules_modules_other hpost r hrs2 (by rw [hid]; exact hpostids)
    exact hpt2 r hrt2 hid


theorem save_ok_lesson_state {caller : Uuid} {d : Course} {s s1 : DBState}
    (hndM : (d.modules.map (·.id)).Nodup)
    (hndL : (d.modules.flatMap (fun m => m.lessons.map (·.id))).Nodup)
    (hparent : ∀ m ∈ d.modules, ∀ l ∈ m.lessons, ∀ r ∈ s.lessons,
      r.id = l.id → r.module_id = m.id)
    (hok : save_course_with_children caller d s = .ok s1)
    {m : Module} (hm : m ∈ d.modules) {l : Lesson} (hl : l ∈ m.lessons) :
    ∃ fs, contentFields l.content = .ok fs ∧
      (∃ r ∈ s1.lessons, r.id = l.id ∧ r.module_id = m.id) ∧
      (∀ r ∈ s1.lessons, r.id = l.id → lessonRowMatches m.id l fs r) := by
  obtain ⟨tid, s2, htid, hcaller, heq, hdel⟩ := save_ok_inv hok
  obtain ⟨pre, post, hsplitM⟩ := List.append_of_mem hm
  obtain ⟨lpre, lpost, hsplitL⟩ := List.append_of_mem hl
  have hminput : m.id ∈ d.modules.map (·.id) := List.mem_map.mpr ⟨m, hm, rfl⟩
  rw [hsplitM] at heq hndL hndM
  rw [List.flatMap_append, List.flatMap_cons] at hndL
  rw [List.map_append, List.map_cons] at hndM
  have hpostids : m.id ∉ post.map (·.id) :=
    (List.nodup_cons.mp (List.nodup_append.mp hndM).2.1).1
  have hE : ∀ m2 ∈ post, m.id ≠ m2.id :=
    fun m2 hm2 he => hpostids (he ▸ List.mem_map.mpr ⟨m2, hm2, rfl⟩)
  have hnd1 := (List.nodup_append.mp hndL).2.1
  have hdisj := (List.nodup_append.mp hndL).2.2
  have hnd2 := List.nodup_append.mp hnd1
  have hmids := hnd2.1
  rw [hsplitL, List.map_append, List.map_cons] at hmids
  have hmids2 := List.nodup_append.mp hmids
  have hA : l.id ∉ lpost.map (·.id) := (List.nodup_cons.mp hmids2.2.1).1
  have hD : l.id ∉ lpre.map (·.id) :=
    fun hmem => hmids2.2.2 hmem (List.mem_cons_self _ _)
  have hlidm : l.id ∈ m.lessons.map (·.id) := by
    rw [hsplitL, List.map_append, List.map_cons]
    exact List.mem_append_right _ (List.mem_cons_self _ _)
  have hB : ∀ m2 ∈ post, l.id ∉ m2.lessons.map (·.id) := by
    intro m2 hm2 hmem
    exact hnd2.2.2 hlidm (List.mem_flatMap.mpr ⟨m2, hm2, hmem⟩)
  have hC : l.id ∉ pre.flatMap (fun m2 => m2.lessons.map (·.id)) :=
    fun hmem => hdisj hmem (List.mem_append_left _ hlidm)
  obtain ⟨t1, t2, hpre, hmstep, hpost⟩ := saveModules_split pre heq
  obtain ⟨tl2, hsl, hdl⟩ := applyModule_inv hmstep
  rw [hsplitL] at hsl
  obtain ⟨u1, u2, hlpre, hlstep, hlpost⟩ := saveLessons_split lpre hsl
  obtain ⟨fs, hcf⟩ := upsertLesson_ok_fields hlstep
  have hucl := (upsertCourse_modules_lessons d tid s).2
  have huml := (upsertModule_courses_lessons d.id t1 m).2
  have hpar : ∀ r0 ∈ u1.lessons, r0.id = l.id → r0.module_id = m.id := by
    intro r0 hr0 hid0
    rcases saveLessons_prov hlpre r0 hr0 with hmem | ⟨⟨l2, hl2, hid2⟩, _⟩
    · rw [huml] at hmem
      rcases saveModules_lessons_prov hpre r0 hmem with hmem2 |
        ⟨⟨m3, hm3, l3, hl3, hid3⟩, _⟩
      · rw [hucl] at hmem2
        exact hparent m hm l hl r0 hmem2 hid0
      · exact absurd (List.mem_flatMap.mpr
          ⟨m3, hm3, List.mem_map.mpr ⟨l3, hl3, hid3.symm.trans hid0⟩⟩) hC
    · exact absurd (List.mem_map.mpr ⟨l2, hl2, hid2.symm.trans hid0⟩) hD
  have hest := upsertLesson_establishes hlstep hcf hpar
  obtain ⟨rw0, hrw0mem, hrw0id⟩ := hest.2
  have hrw0m : rw0.module_id = m.id := (hest.1 rw0 hrw0mem hrw0id).1
  refine ⟨fs, hcf, ?_, ?_⟩
  · have he3 := saveLessons_exists_keyed hlpost l.id m.id hA
      ⟨rw0, hrw0mem, hrw0id, hrw0m⟩
    obtain ⟨r3, hr3mem, hr3id, hr3m⟩ := he3
    have hr3t2 : r3 ∈ t2.lessons := by
      rw [hdl]
      exact (deleteLessonsNotIn_facts m.id (m.lessons.map (·.id)) tl2).2.2.2.2
        r3 hr3mem (Or.inr (by rw [hr3id]; exact hlidm))
    have he5 := saveModules_exists_keyed hpost l.id m.id hB hE
      ⟨r3, hr3t2, hr3id, hr3m⟩
    obtain ⟨r5, hr5mem, hr5id, hr5m⟩ := he5
    refine ⟨r5, ?_, hr5id, hr5m⟩
    rw [hdel]
    refine deleteModulesNotIn_keeps_lessons d.id (d.modules.map (·.id)) s2
      r5 hr5mem ?_
    intro rm hrm hcid hni heq2
    apply hni
    rw [heq2, hr5m]
    exact hminput
  · have hp3 := saveLessons_keeps_keyed hlpost l.id hA _ hest.1
    have hp4 : ∀ r ∈ t2.lessons, r.id = l.id → lessonRowMatches m.id l fs r := by
      intro r hr hid
      rw [hdl] at hr
      exact hp3 r
        ((deleteLessonsNotIn_facts m.id (m.lessons.map (·.id)) tl2).2.2.1 r hr)
        hid
    have hp5 := saveModules_keeps_keyed hpost l.id hB _ hp4
    intro r hr hid
    rw [hdel] at hr
    exact hp5 r
      ((deleteModulesNotIn_facts d.id (d.modules.map (·.id)) s2).2.2.2.2 r hr)
      hid


theorem save_ok_second {caller : Uuid} {d : Course} {s s1 : DBState}
    (hndM : (d.modules.map (·.id)).Nodup)
    (hndL : (d.modules.flatMap (fun m => m.lessons.map (·.id))).Nodup)
    (hparent : ∀ m ∈ d.modules, ∀ l ∈ m.lessons, ∀ r ∈ s.lessons,
      r.id = l.id → r.module_id = m.id)
    (hok : save_course_with_children caller d s = .ok s1) :
    save_course_with_children caller d s1 = .ok s1 := by
  obtain ⟨tid, s2, htid, hcaller, heq, hdel⟩ := save_ok_inv hok
  have hc1 : s1.courses = (upsertCourse d tid s).courses := by
    rw [hdel, (deleteModulesNotIn_facts d.id (d.modules.map (·.id)) s2).1,
      saveModules_courses heq]
  have hP1 := upsertCourse_point d tid s
  have hP1ex : ∃ r ∈ s1.courses, r.id = d.id := by
    rw [hc1]
    exact hP1.1
  have hP1pt : ∀ r ∈ s1.courses, r.id = d.id →
      r.title = d.title ∧ r.description = d.description ∧
      r.category = d.category ∧ r.image_url = courseImg d ∧
      r.is_published = d.isPublished := by
    rw [hc1]
    exact hP1.2
  have hscope : ∀ m ∈ d.modules, ∀ r ∈ s1.lessons, r.module_id = m.id →
      r.id ∈ m.lessons.map (·.id) := by
    intro m hm r hr hmid
    have hrs2 : r ∈ s2.lessons := by
      rw [hdel] at hr
      exact (deleteModulesNotIn_facts d.id (d.modules.map (·.id)) s2).2.2.2.2 r hr
    exact saveModules_scoped heq hndM m hm r hrs2 hmid
  have hmodscope : ∀ r ∈ s1.modules, r.course_id = d.id →
      r.id ∈ d.modules.map (·.id) := by
    intro r hr hcid
    rw [hdel] at hr
    exact (deleteModulesNotIn_facts d.id (d.modules.map (·.id)) s2).2.2.1 r hr hcid
  have hall : ∀ m ∈ d.modules,
      (∃ r ∈ s1.modules, r.id = m.id) ∧
      (∀ r ∈ s1.modules, r.id = m.id → r.title = m.title ∧ r.order = m.order) ∧
      (∀ l ∈ m.lessons, ∃ fs, contentFields l.content = .ok fs ∧
        (∃ r ∈ s1.lessons, r.id = l.id) ∧
        (∀ r ∈ s1.lessons, r.id = l.id →
          r.title = l.title ∧ r.order = l.order ∧ r.file_name = fs.1 ∧
          r.file_type = fs.2.1 ∧ r.file_url = fs.2.2.1 ∧ r.file_size = fs.2.2.2)) ∧
      (∀ r ∈ s1.lessons, r.module_id = m.id → r.id ∈ m.lessons.map (·.id)) := by
    intro m hm
    have hmp := save_ok_module_point hndM hok hm
    refine ⟨hmp.1, hmp.2, ?_, hscope m hm⟩
    intro l hl
    obtain ⟨fs, hcf, hex, hpt⟩ := save_ok_lesson_state hndM hndL hparent hok hm hl
    refine ⟨fs, hcf, ?_, ?_⟩
    · obtain ⟨r, hrmem, hrid, _⟩ := hex
      exact ⟨r, hrmem, hrid⟩
    · intro r hrmem hrid
      have hmt := hpt r hrmem hrid
      unfold lessonRowMatches at hmt
      exact ⟨hmt.2.1, hmt.2.2.1, hmt.2.2.2.1, hmt.2.2.2.2.1,
        hmt.2.2.2.2.2.1, hmt.2.2.2.2.2.2⟩
  unfold save_course_with_children
  rw [htid]
  dsimp only
  rw [if_pos hcaller]
  rw [upsertCourse_identity d tid s1 hP1ex hP1pt]
  rw [saveModules_identity hall]
  dsimp only
  rw [deleteModulesNotIn_identity d.id (d.modules.map (·.id)) s1 hmodscope]


/-- C5 counterexample: saving `moveTree` (which moves lesson `L` into
module `A` while keeping, emptied, the module `B` that persisted `L`)
over `moveState` is not idempotent: the first save deletes `L` outright
(the conflict upsert leaves it under `B`, whose cleanup then removes it),
and the second save re-inserts it under `A`. -/
theorem saveCourse_not_idempotent_cex :
    runTransaction (save_course_with_children "t" moveTree)
        (runTransaction (save_course_with_children "t" moveTree) moveState) ≠
      runTransaction (save_course_with_children "t" moveTree) moveState := by
  decide

/-- C5 amended: two consecutive saves of the same tree equal one, for
trees with duplicate-free ids whose lesson ids are not persisted under a
different module than the one the tree assigns them. -/
theorem saveCourse_idempotent_for_consistent_parents
    (caller : Uuid) (d : Course) (s : DBState)
    (hndM : (d.modules.map (·.id)).Nodup)
    (hndL : (d.modules.flatMap (fun m => m.lessons.map (·.id))).Nodup)
    (hparent : ∀ m ∈ d.modules, ∀ l ∈ m.lessons, ∀ r ∈ s.lessons,
      r.id = l.id → r.module_id = m.id) :
    runTransaction (save_course_with_children caller d)
        (runTransaction (save_course_with_children caller d) s) =
      runTransaction (save_course_with_children caller d) s := by
  cases hres : save_course_with_children caller d s with
  | error e =>
    have h1 : runTransaction (save_course_with_children caller d) s = s := by
      unfold runTransaction
      rw [hres]
    rw [h1]
    exact h1
  | ok s1 =>
    have h1 : runTransaction (save_course_with_children caller d) s = s1 := by
      unfold runTransaction
      rw [hres]
    rw [h1]
    have h2 := save_ok_second hndM hndL hparent hres
    unfold runTransaction
    rw [h2]

/-- Witness for amended C5 at the concrete `goodTree` save. -/
theorem saveCourse_idempotent_for_consistent_parents_witness :
    runTransaction (save_course_with_children "t" goodTree)
        (runTransaction (save_course_with_children "t" goodTree) fixState) =
      runTransaction (save_course_with_children "t" goodTree) fixState :=
  saveCourse_idempotent_for_consistent_parents "t" goodTree fixState
    (by decide) (by decide) (by decide)


end EduFlow
